import Mathlib

/-!
Verification of the Hebrew Calendar & Religious-Time Engine of the
orthodox-synagogue-auction-platform repository.

The development shallowly embeds the TypeScript sources
`packages/hebrew-calendar/src/utils/date-conversion.ts` (date conversion,
Hebrew numerals, gematria) and
`packages/hebrew-calendar/src/services/HebrewCalendarService.ts`
(restriction classifier, permission check, memoizing facade) into Lean.
Pure functions become Lean functions; the facade's cache becomes explicit
state passing; fallible code returns `Except`.  The `@hebcal` conversion
engine is a vendored dependency whose source is not part of the
repository; it is modelled from the specification's description of the
classical Hebrew calendar arithmetic (molad epochs and the four
postponement rules).
-/

set_option maxRecDepth 10000

namespace HebrewCalendar

/-- Error codes mirroring `ErrorCode` in `types/index.ts`. -/
inductive ErrCode where
  | calculationError
  | conversionError
  | invalidHebrewDate
  | invalidDate
  | noHebrewLettersFound
  deriving DecidableEq, Repr

/-! ### Hebrew characters

Individual characters are named so that the character order inside the
right-to-left string literals of the source is unambiguous. -/

def geresh : Char := '׳'
def gershayim : Char := '״'
def alef : Char := 'א'
def bet : Char := 'ב'
def gimel : Char := 'ג'
def dalet : Char := 'ד'
def he : Char := 'ה'
def vav : Char := 'ו'
def zayin : Char := 'ז'
def chet : Char := 'ח'
def tet : Char := 'ט'
def yud : Char := 'י'
def kaf : Char := 'כ'
def lamed : Char := 'ל'
def mem : Char := 'מ'
def nun : Char := 'נ'
def samekh : Char := 'ס'
def ayin : Char := 'ע'
def pe : Char := 'פ'
def tsadi : Char := 'צ'
def qof : Char := 'ק'
def resh : Char := 'ר'
def shin : Char := 'ש'
def tav : Char := 'ת'
def finalKaf : Char := 'ך'
def finalMem : Char := 'ם'
def finalNun : Char := 'ן'
def finalPe : Char := 'ף'
def finalTsadi : Char := 'ץ'

/-- A character in the Hebrew letter block U+05D0 .. U+05EA
(the `[^א-ת]` filter of the source keeps exactly these). -/
def isHebrewLetter (c : Char) : Bool :=
  0x5D0 ≤ c.toNat && c.toNat ≤ 0x5EA

/-! ### Hebrew numerals (`toHebrewNumeral`, lines 45-81 of
`date-conversion.ts`) -/

/-- The `ones` array of `toHebrewNumeral`. -/
def onesNumerals : List String :=
  [ "", String.mk [alef, geresh], String.mk [bet, geresh],
    String.mk [gimel, geresh], String.mk [dalet, geresh],
    String.mk [he, geresh], String.mk [vav, geresh],
    String.mk [zayin, geresh], String.mk [chet, geresh],
    String.mk [tet, geresh] ]

/-- The `teens` array of `toHebrewNumeral`. -/
def teensNumerals : List String :=
  [ String.mk [yud, geresh], String.mk [yud, gershayim, alef],
    String.mk [yud, gershayim, bet], String.mk [yud, gershayim, gimel],
    String.mk [yud, gershayim, dalet], String.mk [tet, gershayim, vav],
    String.mk [tet, gershayim, zayin], String.mk [yud, gershayim, zayin],
    String.mk [yud, gershayim, chet], String.mk [yud, gershayim, tet] ]

/-- The `tens` array of `toHebrewNumeral`. -/
def tensNumerals : List String :=
  [ "", "", String.mk [kaf, geresh], String.mk [lamed, geresh],
    String.mk [mem, geresh], String.mk [nun, geresh],
    String.mk [samekh, geresh], String.mk [ayin, geresh],
    String.mk [pe, geresh], String.mk [tsadi, geresh] ]

/-- The `hundreds` array of `toHebrewNumeral`. -/
def hundredsNumerals : List String :=
  [ "", String.mk [qof, geresh], String.mk [resh, geresh],
    String.mk [shin, geresh], String.mk [tav, geresh],
    String.mk [tav, qof, geresh], String.mk [tav, resh, geresh],
    String.mk [tav, shin, geresh], String.mk [tav, tav, geresh],
    String.mk [tav, tav, qof, geresh] ]

/-- `toHebrewNumeral` (date-conversion.ts lines 45-81): special cases for
15 and 16, range check, then hundreds / tens / teens / ones assembly; the
`result.slice(0, -1) + '״' + ones[num]` step that splices a gershayim
between a tens letter and a following units numeral is `String.dropRight 1`
followed by the two appends. -/
def toHebrewNumeral (num : Nat) : Except ErrCode String :=
  if num = 15 then .ok (String.mk [tet, gershayim, vav])
  else if num = 16 then .ok (String.mk [tet, gershayim, zayin])
  else if num < 1 || 999 < num then .error .calculationError
  else
    let r0 : String := ""
    let s1 : String × Nat :=
      if 100 ≤ num then (r0 ++ (hundredsNumerals.getD (num / 100) ""), num % 100)
      else (r0, num)
    let r1 := s1.1
    let n1 := s1.2
    let result : String :=
      if 20 ≤ n1 then
        let r2 := r1 ++ (tensNumerals.getD (n1 / 10) "")
        let n2 := n1 % 10
        if 0 < n2 then
          (r2.dropRight 1) ++ String.mk [gershayim] ++ (onesNumerals.getD n2 "")
        else r2
      else if 10 ≤ n1 then r1 ++ (teensNumerals.getD (n1 - 10) "")
      else if 0 < n1 then r1 ++ (onesNumerals.getD n1 "")
      else r1
    .ok result

/-- `formatHebrewYear` (date-conversion.ts lines 86-91): display the year
with its thousands digit omitted. -/
def formatHebrewYear (year : Nat) : Except ErrCode String :=
  toHebrewNumeral (year % 1000)

/-! ### Structural predicates about numeral strings, used to state the
geresh/gershayim placement claims. -/

/-- Number of Hebrew letters in a string (geresh and gershayim are
punctuation, outside the letter block). -/
def hebrewLetterCount (s : String) : Nat :=
  (s.data.filter isHebrewLetter).length

/-- Number of geresh marks in a string. -/
def gereshCount (s : String) : Nat :=
  s.data.count geresh

/-- Number of gershayim marks in a string. -/
def gershayimCount (s : String) : Nat :=
  s.data.count gershayim

/-- A single Hebrew letter followed by a geresh, nothing else. -/
def singleLetterForm (l : List Char) : Bool :=
  match l with
  | [c, g] => isHebrewLetter c && g == geresh
  | _ => false

/-- The strict multi-letter form asserted by the claim: a gershayim occurs
exactly once, immediately before the last character, that last character
is a Hebrew letter, and no geresh occurs anywhere. -/
def multiLetterStrictForm (l : List Char) : Bool :=
  match l.reverse with
  | c :: g :: _ =>
    isHebrewLetter c && g == gershayim &&
    l.count geresh == 0 && l.count gershayim == 1
  | _ => false

/-- After ignoring any trailing geresh marks, the last character is a
Hebrew letter immediately preceded by a gershayim. -/
def gershayimPlacement (l : List Char) : Bool :=
  match l.reverse.dropWhile (fun c => c == geresh) with
  | c :: g :: _ => isHebrewLetter c && g == gershayim
  | _ => false

/-- Claim C5 as stated, at one input: the numeral exists and uses a
trailing geresh when it has one letter, and the strict
gershayim-without-geresh form when it has more than one letter. -/
def numeralMarkClaimAt (n : Nat) : Bool :=
  match toHebrewNumeral n with
  | .ok s =>
    (hebrewLetterCount s != 1 || singleLetterForm s.data) &&
    (hebrewLetterCount s < 2 || multiLetterStrictForm s.data)
  | .error _ => false

/-- The amended placement property at one input: the numeral exists;
single-letter numerals end in a geresh; at most one gershayim occurs, and
when one occurs it sits immediately before the last Hebrew letter
(ignoring a trailing geresh on that letter); the strict form of the claim
holds on the teens 11-19. -/
def numeralMarkAmendedAt (n : Nat) : Bool :=
  match toHebrewNumeral n with
  | .ok s =>
    (hebrewLetterCount s != 1 || singleLetterForm s.data) &&
    gershayimCount s ≤ 1 &&
    (gershayimCount s != 1 || gershayimPlacement s.data) &&
    (decide (n < 11) || decide (19 < n) || multiLetterStrictForm s.data)
  | .error _ => false

/-! ### Gematria (`gematria.ts` part of the utils) -/

/-- `GEMATRIA_VALUES` (standard letter values; final forms ך ם ן ף ץ take
their base-letter value).  Lookup is by code point: the table covers
exactly the Hebrew letter block U+05D0 .. U+05EA, `none` outside it. -/
def letterValue (c : Char) : Option Nat :=
  match c.toNat with
  | 0x5D0 => some 1    -- א
  | 0x5D1 => some 2    -- ב
  | 0x5D2 => some 3    -- ג
  | 0x5D3 => some 4    -- ד
  | 0x5D4 => some 5    -- ה
  | 0x5D5 => some 6    -- ו
  | 0x5D6 => some 7    -- ז
  | 0x5D7 => some 8    -- ח
  | 0x5D8 => some 9    -- ט
  | 0x5D9 => some 10   -- י
  | 0x5DA => some 20   -- ך final kaf
  | 0x5DB => some 20   -- כ
  | 0x5DC => some 30   -- ל
  | 0x5DD => some 40   -- ם final mem
  | 0x5DE => some 40   -- מ
  | 0x5DF => some 50   -- ן final nun
  | 0x5E0 => some 50   -- נ
  | 0x5E1 => some 60   -- ס
  | 0x5E2 => some 70   -- ע
  | 0x5E3 => some 80   -- ף final pe
  | 0x5E4 => some 80   -- פ
  | 0x5E5 => some 90   -- ץ final tsadi
  | 0x5E6 => some 90   -- צ
  | 0x5E7 => some 100  -- ק
  | 0x5E8 => some 200  -- ר
  | 0x5E9 => some 300  -- ש
  | 0x5EA => some 400  -- ת
  | _ => none

/-- The nikud / Hebrew-punctuation set removed by the first `replace` of
`calculateGematria`: `[֐-ֽֿ-ׇ׳״]`. -/
def isNikudOrPunct (c : Char) : Bool :=
  (0x590 ≤ c.toNat && c.toNat ≤ 0x5BD) ||
  (0x5BF ≤ c.toNat && c.toNat ≤ 0x5C7) ||
  c.toNat = 0x5F3 || c.toNat = 0x5F4

/-- The cleaning pipeline of `calculateGematria`: strip nikud and Hebrew
punctuation, then keep only characters in the Hebrew letter block. -/
def cleanText (text : String) : List Char :=
  (text.data.filter (fun c => !(isNikudOrPunct c))).filter isHebrewLetter

/-- `calculateStandardGematria` (gematria part, lines 476-487): sum the
letter values left to right, failing on the first letter outside the
table. -/
def calculateStandardGematria : List Char → Except ErrCode Nat
  | [] => .ok 0
  | c :: rest =>
    match letterValue c with
    | none => .error .calculationError
    | some v => (calculateStandardGematria rest).map (fun s => v + s)

/-- `calculateGematria` under the standard method (gematria part,
lines 410-471): clean the text, fail with `NoHebrewLettersFound` when
nothing remains, otherwise sum standard letter values. -/
def calculateGematria (text : String) : Except ErrCode Nat :=
  let clean := cleanText text
  if clean.isEmpty then .error .noHebrewLettersFound
  else calculateStandardGematria clean

/-! ### Classical Hebrew calendar arithmetic

The repository performs its conversions through the vendored `@hebcal`
packages, whose source is not part of the repository; the arithmetic
below is modelled from the specification (§4.1-§4.2): Metonic leap rule,
molad-based year-start epochs with the four postponement rules, month
lengths derived from the year length, and year/month resolution of an
absolute day by locating Rosh Hashanah and accumulating month lengths.
A Gregorian `Date` is represented by its absolute day number; month
numbering follows the conversion engine (1 = Nisan .. 7 = Tishrei ..
13 = Adar II). -/

/-- Modelled from the spec: the Metonic 19-year cycle leap rule of §4.1,
`(7*year + 1) mod 19 < 7` (the source's `isHebrewLeapYear` delegates to
the vendored engine). -/
def isHebrewLeapYear (year : Nat) : Bool :=
  (7 * year + 1) % 19 < 7

/-- Modelled from the spec: lunar months elapsed before Tishrei of the
given year — twelve per elapsed year plus one per elapsed leap year of
the cycle. -/
def monthsElapsed (year : Nat) : Nat :=
  12 * (year - 1) + (7 * (year - 1) + 1) / 19

/-- Modelled from the spec: the molad of Tishrei of the given year, in
halakim (1080 parts per hour, 25920 per day) counted from the epoch
molad; one lunation is 29d 12h 793p = 765433 parts and the epoch molad
is day 1, 5h 204p = 31524 parts. -/
def molad (year : Nat) : Nat :=
  765433 * monthsElapsed year + 31524

/-- Day component of the molad. -/
def moladDay (year : Nat) : Nat :=
  molad year / 25920

/-- Part-of-day component of the molad. -/
def moladParts (year : Nat) : Nat :=
  molad year % 25920

/-- Modelled from the spec: the four postponement rules (dehiyyot)
applied to a molad with day `d` and parts `p`.  Weekdays are counted with
day mod 7 = 0 on Sunday.  Rule 1 (molad zaken): parts ≥ 18h.  Rule 2
(GaTaRaD): Tuesday molad at or after 9h 204p in a common year.  Rule 3
(BeTUTaKPaT): Monday molad at or after 15h 589p in a year following a
leap year.  Rule 4 (lo ADU rosh): Rosh Hashanah may not fall on Sunday,
Wednesday or Friday. -/
def delayedYearStart (d p : Nat) (leapThis leapPrev : Bool) : Nat :=
  let d1 :=
    if 19440 ≤ p ∨ (d % 7 = 2 ∧ 9924 ≤ p ∧ leapThis = false) ∨
        (d % 7 = 1 ∧ 16789 ≤ p ∧ leapPrev = true) then d + 1
    else d
  if d1 % 7 = 0 ∨ d1 % 7 = 3 ∨ d1 % 7 = 5 then d1 + 1 else d1

/-- Modelled from the spec: the absolute day of 1 Tishrei of the given
year (the year-start epoch of §4.2). -/
def elapsedDays (year : Nat) : Nat :=
  delayedYearStart (moladDay year) (moladParts year)
    (isHebrewLeapYear year) (isHebrewLeapYear (year - 1))

/-- Modelled from the spec: total length of the year in days. -/
def daysInYear (year : Nat) : Nat :=
  elapsedDays (year + 1) - elapsedDays year

/-- Modelled from the spec: Cheshvan is long (30 days) in 355/385-day
years. -/
def longCheshvan (year : Nat) : Bool :=
  daysInYear year % 10 = 5

/-- Modelled from the spec: Kislev is short (29 days) in 353/383-day
years. -/
def shortKislev (year : Nat) : Bool :=
  daysInYear year % 10 = 3

/-- Modelled from the spec: month lengths (the source's
`getDaysInHebrewMonth` delegates to the vendored engine).  Iyar, Tamuz,
Elul, Tevet and Adar II always have 29 days; Adar (month 12) has 29 days
in a common year; Cheshvan and Kislev vary with the year length; all
other months have 30 days. -/
def daysInMonth (month year : Nat) : Nat :=
  if month = 2 ∨ month = 4 ∨ month = 6 ∨ month = 10 ∨ month = 13 then 29
  else if month = 12 ∧ isHebrewLeapYear year = false then 29
  else if month = 8 ∧ longCheshvan year = false then 29
  else if month = 9 ∧ shortKislev year = true then 29
  else 30

/-- Modelled from the spec: the months of a year in calendar order,
starting from Tishrei; Adar II (13) exists only in leap years. -/
def monthsInOrder (year : Nat) : List Nat :=
  if isHebrewLeapYear year then [7, 8, 9, 10, 11, 12, 13, 1, 2, 3, 4, 5, 6]
  else [7, 8, 9, 10, 11, 12, 1, 2, 3, 4, 5, 6]

/-- Days occupied by the months strictly before the first occurrence of
`target` in the list. -/
def daysBeforeIn (year target : Nat) : List Nat → Nat
  | [] => 0
  | m :: rest =>
    if m = target then 0
    else daysInMonth m year + daysBeforeIn year target rest

/-- Modelled from the spec: the absolute day of a Hebrew date — the
year-start epoch plus the cumulative days of the preceding months plus
the day of month. -/
def toAbs (day month year : Nat) : Nat :=
  elapsedDays year + daysBeforeIn year month (monthsInOrder year) + (day - 1)

/-- Descending search for the greatest year `y ≤ k` whose year start is
at or before `n`. -/
def yearSearchGo (n : Nat) : Nat → Nat
  | 0 => 1
  | k + 1 => if elapsedDays (k + 1) ≤ n then k + 1 else yearSearchGo n k

/-- Modelled from the spec: the Hebrew year containing absolute day `n`,
found by locating the last Rosh Hashanah at or before `n` (every year has
at least 353 days, so the year is at most `n / 352 + 2`). -/
def yearOf (n : Nat) : Nat :=
  yearSearchGo n (n / 352 + 2)

/-- Scan the months of the year in calendar order, consuming the 0-based
day offset within the year; returns the month and 1-based day. -/
def monthScan (year : Nat) (o : Nat) : List Nat → Nat × Nat
  | [] => (6, o + 1)
  | m :: rest =>
    if o < daysInMonth m year then (m, o + 1)
    else monthScan year (o - daysInMonth m year) rest

/-- Modelled from the spec: absolute day to Hebrew `(day, month, year)` —
resolve the year via its start epoch, then the month by cumulative day
counts from the year start. -/
def fromAbs (n : Nat) : Nat × Nat × Nat :=
  let y := yearOf n
  let o := n - elapsedDays y
  let md := monthScan y o (monthsInOrder y)
  (md.2, md.1, y)

/-! ### Source conversion layer (`date-conversion.ts`) -/

/-- `isValidHebrewDate` (date-conversion.ts lines 246-262). -/
def isValidHebrewDate (day month year : Nat) : Bool :=
  if day < 1 || month < 1 || 13 < month || year < 1 then false
  else if month = 13 && !isHebrewLeapYear year then false
  else day ≤ daysInMonth month year

/-- Modelled from the spec: the conversion engine's date constructor
rejects (with `InvalidHebrewDate`) any day/month/year violating the §3
invariants — day within [1, month length], month within [1, 13] with
month 13 only in leap years, year positive. -/
def hdateValid (day month year : Nat) : Bool :=
  1 ≤ day && 1 ≤ month && month ≤ 13 && 1 ≤ year &&
  (month != 13 || isHebrewLeapYear year) &&
  day ≤ daysInMonth month year

/-- `HEBREW_MONTHS` (date-conversion.ts lines 13-27): month-name table
keyed by the engine's month number. -/
def hebrewMonthName (m : Nat) : Option String :=
  match m with
  | 1 => some "תִּשְׁרֵי"
  | 2 => some "מַרְחֶשְׁוָן"
  | 3 => some "כִּסְלֵו"
  | 4 => some "טֵבֵת"
  | 5 => some "שְׁבָט"
  | 6 => some "אֲדָר"
  | 7 => some "נִיסָן"
  | 8 => some "אִיָּר"
  | 9 => some "סִיוָן"
  | 10 => some "תַּמּוּז"
  | 11 => some "אָב"
  | 12 => some "אֱלוּל"
  | 13 => some "אֲדָר ב׳"
  | _ => none

/-- `HEBREW_DAYS` (date-conversion.ts lines 32-40). -/
def hebrewDayName (dow : Nat) : String :=
  [ "רִאשׁוֹן", "שֵׁנִי", "שְׁלִישִׁי", "רְבִיעִי",
    "חֲמִישִׁי", "שִׁשִּׁי", "שַׁבָּת" ].getD dow ""

/-- `HebrewDate` from `types/index.ts`; the Gregorian `Date` member is
the absolute day number. -/
structure HebrewDateRec where
  hebrewDateString : String
  hebrewYear : Nat
  hebrewMonth : String
  hebrewDay : Nat
  gregorianDate : Nat
  deriving DecidableEq, Repr

/-- The record-assembly tail of `gregorianToHebrew` (date-conversion.ts
lines 96-137): look up the month name, format day numeral and year, and
build the record; any thrown error surfaces as a failed
`ConversionResult`. -/
def mkHebrewRecord (n d m y : Nat) : Except ErrCode HebrewDateRec :=
  match hebrewMonthName m with
  | none => .error .calculationError
  | some name =>
    match toHebrewNumeral d with
    | .error e => .error e
    | .ok dayStr =>
      match formatHebrewYear y with
      | .error e => .error e
      | .ok yearStr =>
        .ok { hebrewDateString := dayStr ++ " " ++ name ++ " " ++ yearStr
              hebrewYear := y
              hebrewMonth := name
              hebrewDay := d
              gregorianDate := n }

/-- `gregorianToHebrew` (date-conversion.ts lines 96-137, continued):
resolve the Hebrew triple of the absolute day and assemble the result. -/
def gregorianToHebrew (n : Nat) : Except ErrCode HebrewDateRec :=
  mkHebrewRecord n (fromAbs n).1 (fromAbs n).2.1 (fromAbs n).2.2

/-- `hebrewToGregorian` (date-conversion.ts lines 142-184): construct the
engine date (validating the §3 invariants), look up the month name,
format day numeral and year, and assemble the record; any thrown error
surfaces as a failed `ConversionResult`. -/
def hebrewToGregorian (day month year : Nat) : Except ErrCode HebrewDateRec :=
  if hdateValid day month year = false then .error .invalidHebrewDate
  else
    match hebrewMonthName month with
    | none => .error .calculationError
    | some name =>
      match toHebrewNumeral day with
      | .error e => .error e
      | .ok dayStr =>
        match formatHebrewYear year with
        | .error e => .error e
        | .ok yearStr =>
          .ok { hebrewDateString := dayStr ++ " " ++ name ++ " " ++ yearStr
                hebrewYear := year
                hebrewMonth := name
                hebrewDay := day
                gregorianDate := toAbs day month year }

/-! ### Restriction classifier and permission check
(`HebrewCalendarService.ts`) -/

/-- `TimeRestriction` from `types/index.ts`. -/
structure TimeRestriction where
  startTime : String
  endTime : String
  description : String
  descriptionHebrew : String
  deriving DecidableEq, Repr

/-- `AuctionRestrictions` from `types/index.ts`. -/
structure AuctionRestrictions where
  noAuctions : Bool
  restrictedHours : List TimeRestriction
  specialConsiderations : String
  specialConsiderationsHebrew : String
  overrideAllowed : Bool
  emergencyOnly : Bool
  deriving DecidableEq, Repr

/-- `EnhancedHebrewDate` from `types/index.ts` (the fields the engine
reads). -/
structure EnhancedHebrewDate where
  hebrewDateString : String := ""
  hebrewYear : Nat := 0
  hebrewMonth : String := ""
  hebrewDay : Nat := 0
  isShabbat : Bool := false
  isYomTov : Bool := false
  isRoshChodesh : Bool := false
  isCholedMoed : Bool := false
  isFastDay : Bool := false
  dayOfWeek : Nat := 0
  dayOfWeekHebrew : String := ""
  parsha : Option String := none
  parshaHebrew : Option String := none
  deriving DecidableEq, Repr

/-- The default verdict built at the top of `getAuctionRestrictions`
(service lines 219-226). -/
def defaultRestrictions : AuctionRestrictions where
  noAuctions := false
  restrictedHours := []
  specialConsiderations := "Regular day - no restrictions"
  specialConsiderationsHebrew := "יום רגיל - אין הגבלות"
  overrideAllowed := true
  emergencyOnly := false

/-- The Shabbat verdict (service lines 229-238). -/
def shabbatRestrictions : AuctionRestrictions where
  noAuctions := true
  restrictedHours := []
  specialConsiderations := "No auctions permitted on Shabbat"
  specialConsiderationsHebrew := "אסור לערוך מכירות פומביות בשבת"
  overrideAllowed := false
  emergencyOnly := false

/-- The Yom Tov verdict (service lines 241-250). -/
def yomTovRestrictions : AuctionRestrictions where
  noAuctions := true
  restrictedHours := []
  specialConsiderations := "No auctions permitted on Yom Tov"
  specialConsiderationsHebrew := "אסור לערוך מכירות פומביות ביום טוב"
  overrideAllowed := false
  emergencyOnly := false

/-- The Rosh Chodesh verdict (service lines 253-269): one window bounded
by liturgical landmark names rather than clock times. -/
def roshChodeshRestrictions : AuctionRestrictions where
  noAuctions := false
  restrictedHours :=
    [ { startTime := "shacharit"
        endTime := "after_hallel"
        description := "Limited during morning prayers with Hallel"
        descriptionHebrew := "הגבלה בזמן תפילת שחרית עם הלל" } ]
  specialConsiderations := "Rosh Chodesh - avoid during special prayers"
  specialConsiderationsHebrew := "ראש חודש - להימנע בזמן תפילות מיוחדות"
  overrideAllowed := true
  emergencyOnly := false

/-- The fast-day verdict (service lines 272-288): one window from dawn to
nightfall, given as HH:MM clock strings taken from the zmanim. -/
def fastDayRestrictions (alotStr tzaitStr : String) : AuctionRestrictions where
  noAuctions := false
  restrictedHours :=
    [ { startTime := alotStr
        endTime := tzaitStr
        description := "Sensitive timing during fast day"
        descriptionHebrew := "עיתוי רגיש ביום צום" } ]
  specialConsiderations := "Fast day - proceed with sensitivity"
  specialConsiderationsHebrew := "יום צום - להמשיך ברגישות"
  overrideAllowed := true
  emergencyOnly := false

/-- The body of `getAuctionRestrictions` (service lines 214-291): the
rules are applied in sequence, each matching rule REASSIGNING the result;
only the Rosh Chodesh rule is guarded against Shabbat and Yom Tov, and
the fast-day rule runs last and unguarded. -/
def classifyRestrictions (enh : EnhancedHebrewDate)
    (alotStr tzaitStr : String) : AuctionRestrictions :=
  let r0 := defaultRestrictions
  let r1 := if enh.isShabbat then shabbatRestrictions else r0
  let r2 := if enh.isYomTov then yomTovRestrictions else r1
  let r3 :=
    if enh.isRoshChodesh && !enh.isShabbat && !enh.isYomTov then
      roshChodeshRestrictions
    else r2
  let r4 := if enh.isFastDay then fastDayRestrictions alotStr tzaitStr else r3
  r4

/-- `isTimeBetween` (service lines 389-396): lexicographic comparison of
HH:MM strings when both bounds contain a colon, `false` otherwise (zmanim
landmark names are never resolved). -/
def isTimeBetween (current start endT : String) : Bool :=
  if start.contains ':' && endT.contains ':' then
    decide (start ≤ current) && decide (current ≤ endT)
  else false

/-- The result record of `isAuctionPermitted`. -/
structure PermitResult where
  permitted : Bool
  reason : String
  reasonHebrew : String
  deriving DecidableEq, Repr

/-- The first restricted window of the list that matches the current
time, mirroring the `for` loop of `isAuctionPermitted`. -/
def findRestrictedWindow (current : String) :
    List TimeRestriction → Option TimeRestriction
  | [] => none
  | w :: rest =>
    if isTimeBetween current w.startTime w.endTime then some w
    else findRestrictedWindow current rest

/-- The body of `isAuctionPermitted` (service lines 305-338) applied to a
day verdict and the clock time `HH:MM` of the instant. -/
def isAuctionPermittedOn (r : AuctionRestrictions)
    (current : String) : PermitResult :=
  if r.noAuctions then
    { permitted := false
      reason := r.specialConsiderations
      reasonHebrew := r.specialConsiderationsHebrew }
  else
    match findRestrictedWindow current r.restrictedHours with
    | some w =>
      { permitted := false
        reason := w.description
        reasonHebrew := w.descriptionHebrew }
    | none =>
      { permitted := true
        reason := "Auctions permitted"
        reasonHebrew := "מכירות פומביות מותרות" }

/-- An `EnhancedHebrewDate` that is both Shabbat and a fast day: the
flag combination on which the claimed Shabbat priority breaks. -/
def shabbatFastDayExample : EnhancedHebrewDate where
  isShabbat := true
  isFastDay := true
  dayOfWeek := 6

/-- An `EnhancedHebrewDate` for an ordinary Saturday that is also Rosh
Chodesh. -/
def shabbatRoshChodeshExample : EnhancedHebrewDate where
  isShabbat := true
  isRoshChodesh := true
  hebrewDay := 1
  dayOfWeek := 6

/-! ### The date pipeline and the facade (`HebrewCalendarService.ts`)

A JS `Date` instant is represented by what the engine reads from it: its
absolute day number, its weekday index (`getDay()`), and its clock time
`HH:MM` (`toTimeString().slice(0, 5)`).  The solar astronomy of the
vendored zmanim library is abstracted as a function parameter `zf`
producing the dawn/nightfall clock strings and the remaining time points;
every result field the service itself assembles is modelled exactly. -/

/-- The observable content of a JS `Date`. -/
structure GregInstant where
  absDay : Nat
  dayOfWeek : Nat
  clock : String
  deriving DecidableEq, Repr

/-- `getEnhancedHebrewDate` (date-conversion.ts lines 189-227): convert
the date — a failed conversion is rethrown as `ConversionError` — then
derive the weekday name and the Shabbat / Rosh Chodesh flags; the holiday
flags remain false (the TODO in the source). -/
def getEnhancedHebrewDate (inst : GregInstant) :
    Except ErrCode EnhancedHebrewDate :=
  ((gregorianToHebrew inst.absDay).mapError
    (fun _ => ErrCode.conversionError)).map
    (fun base =>
      { hebrewDateString := base.hebrewDateString
        hebrewYear := base.hebrewYear
        hebrewMonth := base.hebrewMonth
        hebrewDay := base.hebrewDay
        isShabbat := inst.dayOfWeek == 6
        isYomTov := false
        isRoshChodesh :=
          (fromAbs inst.absDay).1 == 1 || (fromAbs inst.absDay).1 == 30
        isCholedMoed := false
        isFastDay := false
        dayOfWeek := inst.dayOfWeek
        dayOfWeekHebrew := hebrewDayName inst.dayOfWeek
        parsha := none
        parshaHebrew := none })

/-- `enrichWithHolidayInfo` (service lines 381-387): the body holds only
comments — holiday enrichment is a no-op. -/
def enrichWithHolidayInfo (e : EnhancedHebrewDate) : EnhancedHebrewDate := e

/-- The service's `getEnhancedDate` without its cache layer. -/
def getEnhancedDatePure (inst : GregInstant) :
    Except ErrCode EnhancedHebrewDate :=
  (getEnhancedHebrewDate inst).map enrichWithHolidayInfo

/-- `Location` from `types/index.ts` (coordinates as plain numbers). -/
structure Location where
  name : String
  latitude : Int
  longitude : Int
  timezone : String
  elevation : Int
  deriving DecidableEq, Repr

/-- The output of the vendored solar library, abstracted: dawn and
nightfall clock strings plus the remaining time points. -/
structure ZmanAstro where
  alotClock : String
  tzaitClock : String
  other : Nat
  deriving DecidableEq, Repr

/-- The `Zmanim` result record as assembled by `getZmanim` (service
lines 156-209): location name and timezone copied from the location, the
`date` field set to the exact instant, and the astronomical fields from
the solar library. -/
structure ZmanimRec where
  location : String
  timezone : String
  dateAbs : Nat
  dateClock : String
  astro : ZmanAstro
  deriving DecidableEq, Repr

/-- The service's `getZmanim` without its cache layer, parametrized by
the abstract solar computation `zf`. -/
def getZmanimPure (zf : GregInstant → Location → ZmanAstro)
    (inst : GregInstant) (loc : Location) : ZmanimRec :=
  { location := loc.name
    timezone := loc.timezone
    dateAbs := inst.absDay
    dateClock := inst.clock
    astro := zf inst loc }

/-- `getAuctionRestrictions` (service lines 214-291) as a function of the
instant and location: classify the enhanced date, the fast-day window
strings coming from the co-computed zmanim. -/
def getAuctionRestrictionsPure (zf : GregInstant → Location → ZmanAstro)
    (inst : GregInstant) (loc : Location) :
    Except ErrCode AuctionRestrictions :=
  (getEnhancedDatePure inst).map
    (fun e =>
      classifyRestrictions e (getZmanimPure zf inst loc).astro.alotClock
        (getZmanimPure zf inst loc).astro.tzaitClock)

/-- `isAuctionPermitted` (service lines 305-338) as a function of the
instant and location. -/
def isAuctionPermittedPure (zf : GregInstant → Location → ZmanAstro)
    (inst : GregInstant) (loc : Location) : Except ErrCode PermitResult :=
  (getAuctionRestrictionsPure zf inst loc).map
    (fun r => isAuctionPermittedOn r inst.clock)

/-! ### The facade's memoization cache

The source keeps one `Map<string, any>` whose keys come from four
templates: `greg_to_heb_` + `toISOString()`, `heb_to_greg_d_m_y`,
`enhanced_` + `toISOString()`, and `zmanim_` + `toDateString()` +
`_lat_long`.  `toISOString` is injective on instants, `toDateString` is
determined by the calendar day alone, the numeric `d_m_y` template is
injective, and the four prefixes never produce equal strings, so the key
space is modelled faithfully by an inductive type.  Note what the zmanim
key omits: the clock time of the instant and the location's name,
timezone and elevation. -/
inductive CacheKey where
  | kG2H (inst : GregInstant)
  | kH2G (d m y : Nat)
  | kEnh (inst : GregInstant)
  | kZman (day : Nat) (lat long : Int)
  deriving DecidableEq, Repr

/-- The values the four operations store (`any` in the source). -/
inductive CacheVal where
  | vHD (r : HebrewDateRec)
  | vGreg (n : Nat)
  | vEnh (e : EnhancedHebrewDate)
  | vZman (z : ZmanimRec)
  deriving DecidableEq, Repr

/-- The cache state: newest binding first (insertion overwrites). -/
abbrev Cache := List (CacheKey × CacheVal)

/-- `Map.get` / `Map.has`. -/
def cacheGet : Cache → CacheKey → Option CacheVal
  | [], _ => none
  | (k, v) :: rest, key => if k = key then some v else cacheGet rest key

/-- `Map.set`. -/
def cacheSet (st : Cache) (k : CacheKey) (v : CacheVal) : Cache :=
  (k, v) :: st

/-- `Map.delete`, as scheduled by the TTL `setTimeout`. -/
def cacheDelete (st : Cache) (k : CacheKey) : Cache :=
  st.filter (fun p => p.1 != k)

/-- The facade's `gregorianToHebrew` (service lines 73-95): cache lookup
when enabled, otherwise compute — a failed conversion is rethrown as
`CalculationError` — and store the result under the instant's key. -/
def svcGregToHebrew (ce : Bool) (st : Cache) (inst : GregInstant) :
    Except ErrCode (CacheVal × Cache) :=
  if ce then
    match cacheGet st (.kG2H inst) with
    | some v => .ok (v, st)
    | none =>
      ((gregorianToHebrew inst.absDay).mapError
        (fun _ => ErrCode.calculationError)).map
        (fun r => (CacheVal.vHD r, cacheSet st (.kG2H inst) (.vHD r)))
  else
    ((gregorianToHebrew inst.absDay).mapError
      (fun _ => ErrCode.calculationError)).map
      (fun r => (CacheVal.vHD r, st))

/-- The facade's `hebrewToGregorian` (service lines 100-121): the stored
and returned value is the Gregorian date member of the conversion. -/
def svcHebToGreg (ce : Bool) (st : Cache) (d m y : Nat) :
    Except ErrCode (CacheVal × Cache) :=
  if ce then
    match cacheGet st (.kH2G d m y) with
    | some v => .ok (v, st)
    | none =>
      ((hebrewToGregorian d m y).mapError
        (fun _ => ErrCode.calculationError)).map
        (fun r =>
          (CacheVal.vGreg r.gregorianDate,
           cacheSet st (.kH2G d m y) (.vGreg r.gregorianDate)))
  else
    ((hebrewToGregorian d m y).mapError
      (fun _ => ErrCode.calculationError)).map
      (fun r => (CacheVal.vGreg r.gregorianDate, st))

/-- The facade's `getEnhancedDate` (service lines 126-144). -/
def svcEnhanced (ce : Bool) (st : Cache) (inst : GregInstant) :
    Except ErrCode (CacheVal × Cache) :=
  if ce then
    match cacheGet st (.kEnh inst) with
    | some v => .ok (v, st)
    | none =>
      (getEnhancedDatePure inst).map
        (fun e => (CacheVal.vEnh e, cacheSet st (.kEnh inst) (.vEnh e)))
  else
    (getEnhancedDatePure inst).map (fun e => (CacheVal.vEnh e, st))

/-- The facade's `getZmanim` (service lines 156-209): the cache key drops
the clock time and the location's name, timezone and elevation, while the
stored value retains them. -/
def svcZmanim (zf : GregInstant → Location → ZmanAstro) (ce : Bool)
    (st : Cache) (inst : GregInstant) (loc : Location) :
    CacheVal × Cache :=
  if ce then
    match cacheGet st (.kZman inst.absDay loc.latitude loc.longitude) with
    | some v => (v, st)
    | none =>
      (CacheVal.vZman (getZmanimPure zf inst loc),
       cacheSet st (.kZman inst.absDay loc.latitude loc.longitude)
         (.vZman (getZmanimPure zf inst loc)))
  else (CacheVal.vZman (getZmanimPure zf inst loc), st)

/-- The state left behind by a fallible facade operation (a thrown error
leaves the cache unchanged). -/
def stateAfter (st : Cache) : Except ErrCode (CacheVal × Cache) → Cache
  | .ok p => p.2
  | .error _ => st

/-- Cache states reachable from a fresh service by any sequence of
facade calls, TTL expirations and `clearCache`. -/
inductive Reachable (zf : GregInstant → Location → ZmanAstro) : Cache → Prop
  | empty : Reachable zf []
  | stepG2H (st : Cache) (ce : Bool) (inst : GregInstant) :
      Reachable zf st → Reachable zf (stateAfter st (svcGregToHebrew ce st inst))
  | stepH2G (st : Cache) (ce : Bool) (d m y : Nat) :
      Reachable zf st → Reachable zf (stateAfter st (svcHebToGreg ce st d m y))
  | stepEnh (st : Cache) (ce : Bool) (inst : GregInstant) :
      Reachable zf st → Reachable zf (stateAfter st (svcEnhanced ce st inst))
  | stepZman (st : Cache) (ce : Bool) (inst : GregInstant) (loc : Location) :
      Reachable zf st → Reachable zf (svcZmanim zf ce st inst loc).2
  | stepExpire (st : Cache) (k : CacheKey) :
      Reachable zf st → Reachable zf (cacheDelete st k)
  | stepClear (st : Cache) :
      Reachable zf st → Reachable zf []

/-- The binding invariant: a binding holds exactly the value the pure
computation of its key produces — except zmanim bindings, whose key does
not determine the instant's clock or the location's full identity, only
that SOME instant of that day and SOME location with those coordinates
wrote the entry. -/
def entryOK (zf : GregInstant → Location → ZmanAstro)
    (k : CacheKey) (v : CacheVal) : Prop :=
  (∀ inst, k = .kG2H inst →
    ∃ r, gregorianToHebrew inst.absDay = .ok r ∧ v = .vHD r) ∧
  (∀ d m y, k = .kH2G d m y →
    ∃ r, hebrewToGregorian d m y = .ok r ∧ v = .vGreg r.gregorianDate) ∧
  (∀ inst, k = .kEnh inst →
    ∃ e, getEnhancedDatePure inst = .ok e ∧ v = .vEnh e) ∧
  (∀ day lat long, k = .kZman day lat long →
    ∃ inst loc, inst.absDay = day ∧ loc.latitude = lat ∧
      loc.longitude = long ∧ v = .vZman (getZmanimPure zf inst loc))

/-- The cache invariant: every binding is sound. -/
def CacheOK (zf : GregInstant → Location → ZmanAstro) (st : Cache) : Prop :=
  ∀ k v, (k, v) ∈ st → entryOK zf k v

/-- The abstract solar function used by the concrete cache
counterexample. -/
def zfSample : GregInstant → Location → ZmanAstro :=
  fun _ _ => { alotClock := "05:00", tzaitClock := "19:00", other := 0 }

/-- Morning instant of some day. -/
def instMorning : GregInstant where
  absDay := 356
  dayOfWeek := 6
  clock := "09:00"

/-- Afternoon instant of the same day. -/
def instAfternoon : GregInstant where
  absDay := 356
  dayOfWeek := 6
  clock := "14:00"

/-- A sample location. -/
def locSample : Location where
  name := "Jerusalem"
  latitude := 31
  longitude := 35
  timezone := "Asia/Jerusalem"
  elevation := 754

/-- Sample instant for the pipeline witnesses (1 Tishrei of year 2, a
Saturday that is Rosh Chodesh). -/
def sampleInstant : GregInstant where
  absDay := 356
  dayOfWeek := 6
  clock := "10:00"

/-- The enhanced date the pipeline produces for `sampleInstant`. -/
def sampleEnhanced : EnhancedHebrewDate where
  hebrewDateString := "א׳ נִיסָן ב׳"
  hebrewYear := 2
  hebrewMonth := "נִיסָן"
  hebrewDay := 1
  isShabbat := true
  isYomTov := false
  isRoshChodesh := true
  isCholedMoed := false
  isFastDay := false
  dayOfWeek := 6
  dayOfWeekHebrew := "שַׁבָּת"
  parsha := none
  parshaHebrew := none

end HebrewCalendar

deriving instance DecidableEq for Except

namespace HebrewCalendar

/-! ## Theorems -/

/-- Every character in the Hebrew letter block has a standard gematria
value. -/
theorem letterValue_isSome_of_isHebrewLetter (c : Char)
    (h : isHebrewLetter c = true) : (letterValue c).isSome = true := by
  unfold isHebrewLetter at h
  simp only [Bool.and_eq_true, decide_eq_true_eq] at h
  obtain ⟨h1, h2⟩ := h
  unfold letterValue
  generalize hg : c.toNat = k at h1 h2 ⊢
  interval_cases k <;> rfl

/-- The standard gematria sum succeeds on any list of Hebrew letters. -/
theorem calculateStandardGematria_ok_of_letters :
    ∀ l : List Char, (∀ c ∈ l, isHebrewLetter c = true) →
    ∃ v, calculateStandardGematria l = .ok v := by
  intro l
  induction l with
  | nil => exact fun _ => ⟨0, rfl⟩
  | cons c rest ih =>
    intro h
    have hc := letterValue_isSome_of_isHebrewLetter c (h c (by simp))
    obtain ⟨v, hv⟩ := Option.isSome_iff_exists.mp hc
    obtain ⟨w, hw⟩ := ih (fun d hd => h d (by simp [hd]))
    refine ⟨v + w, ?_⟩
    simp only [calculateStandardGematria, hv, hw, Except.map]

/-- Outside [1, 999] the numeral conversion reports the out-of-range
calculation error. -/
theorem toHebrewNumeral_out_of_range (n : Nat) (h : n < 1 ∨ 999 < n) :
    toHebrewNumeral n = .error .calculationError := by
  unfold toHebrewNumeral
  rw [if_neg (by omega), if_neg (by omega),
    if_pos (by simp only [Bool.or_eq_true, decide_eq_true_eq]; omega)]

/-- Inside [1, 999] the numeral conversion always produces a string. -/
theorem toHebrewNumeral_ok_in_range (n : Nat) (h1 : 1 ≤ n) (h2 : n ≤ 999) :
    ∃ s, toHebrewNumeral n = .ok s := by
  unfold toHebrewNumeral
  by_cases h15 : n = 15
  · rw [if_pos h15]
    exact ⟨_, rfl⟩
  rw [if_neg h15]
  by_cases h16 : n = 16
  · rw [if_pos h16]
    exact ⟨_, rfl⟩
  rw [if_neg h16, if_neg]
  · exact ⟨_, rfl⟩
  · simp only [Bool.or_eq_true, decide_eq_true_eq]
    omega

/-- Claim C4: `toHebrewNumeral` returns exactly "ט״ו" for 15 and "ט״ז"
for 16, and it succeeds if and only if the input lies in [1, 999]. -/
theorem toHebrewNumeral_exceptions_and_range :
    toHebrewNumeral 15 = .ok "ט״ו" ∧ toHebrewNumeral 16 = .ok "ט״ז" ∧
    ∀ n : Nat, (∃ s, toHebrewNumeral n = .ok s) ↔ (1 ≤ n ∧ n ≤ 999) := by
  refine ⟨by decide, by decide, fun n => ⟨?_, ?_⟩⟩
  · rintro ⟨s, hs⟩
    by_contra hc
    rw [toHebrewNumeral_out_of_range n (by omega)] at hs
    exact absurd hs (by simp)
  · rintro ⟨h1, h2⟩
    exact toHebrewNumeral_ok_in_range n h1 h2

/-- Claim C5 counterexample: at input 21 the numeral is "כ״א׳" — a
multi-letter numeral carrying a stray geresh after its final letter — so
the claimed strict geresh/gershayim discipline fails inside [1, 999]. -/
theorem numeralMarkClaim_fails_at_21 :
    1 ≤ 21 ∧ 21 ≤ 999 ∧ numeralMarkClaimAt 21 = false := by decide

/-- Claim C5 (amended): for every n in [1, 999] the numeral exists;
single-letter numerals carry a trailing geresh; at most one gershayim
occurs and, when present, it sits immediately before the last Hebrew
letter (which may itself carry a trailing geresh, as in 21 → "כ״א׳");
the strict claimed form — gershayim before the last letter and no geresh
at all — holds on the teens 11–19.  Compound numerals keep a geresh on
each digit-group component (105 → "ק׳ה׳") and multi-letter hundreds such
as 500 → "תק׳" contain no gershayim at all. -/
theorem numeralMarkAmended_holds (n : Nat) (h1 : 1 ≤ n) (h2 : n ≤ 999) :
    numeralMarkAmendedAt n = true := by
  have key : ∀ m, m < 1000 → (m = 0 ∨ numeralMarkAmendedAt m = true) := by decide
  rcases key n (by omega) with h | h
  · omega
  · exact h

/-- Witness for the amended C5 theorem at n = 500. -/
theorem numeralMarkAmended_holds_witness :
    1 ≤ 500 ∧ 500 ≤ 999 ∧ numeralMarkAmendedAt 500 = true :=
  ⟨by decide, by decide, numeralMarkAmended_holds 500 (by decide) (by decide)⟩

/-! ### Calendar arithmetic lemmas -/

/-- A year has 12 months, 13 when leap. -/
theorem monthsElapsed_step (y : Nat) (hy : 1 ≤ y) :
    monthsElapsed (y + 1) =
      monthsElapsed y + 12 + (if isHebrewLeapYear y = true then 1 else 0) := by
  obtain ⟨z, rfl⟩ : ∃ z, y = z + 1 := ⟨y - 1, by omega⟩
  unfold monthsElapsed isHebrewLeapYear
  simp only [Nat.add_sub_cancel, decide_eq_true_eq]
  obtain ⟨q, r, hrlt, rfl⟩ : ∃ q r, r < 19 ∧ z = 19 * q + r :=
    ⟨z / 19, z % 19, Nat.mod_lt _ (by norm_num), by omega⟩
  have e1 : 7 * (19 * q + r + 1) + 1 = 19 * (7 * q) + (7 * r + 8) := by ring
  have e2 : 7 * (19 * q + r) + 1 = 19 * (7 * q) + (7 * r + 1) := by ring
  rw [e1, e2, Nat.mul_add_div (by norm_num), Nat.mul_add_div (by norm_num),
    Nat.mul_add_mod]
  interval_cases r <;> (norm_num; try omega)

/-- Leap years of the Metonic cycle are never adjacent. -/
theorem noConsecutiveLeap (y : Nat) (hy : 1 ≤ y)
    (h : isHebrewLeapYear y = true) :
    isHebrewLeapYear (y - 1) = false := by
  simp only [isHebrewLeapYear, decide_eq_true_eq] at h
  simp only [isHebrewLeapYear, decide_eq_false_iff_not, not_lt]
  obtain ⟨z, rfl⟩ : ∃ z, y = z + 1 := ⟨y - 1, by omega⟩
  simp only [Nat.add_sub_cancel] at h ⊢
  obtain ⟨q, r, hrlt, rfl⟩ : ∃ q r, r < 19 ∧ z = 19 * q + r :=
    ⟨z / 19, z % 19, Nat.mod_lt _ (by norm_num), by omega⟩
  have e1 : 7 * (19 * q + r + 1) + 1 = 19 * (7 * q) + (7 * r + 8) := by ring
  have e2 : 7 * (19 * q + r) + 1 = 19 * (7 * q) + (7 * r + 1) := by ring
  rw [e1, Nat.mul_add_mod] at h
  rw [e2, Nat.mul_add_mod]
  interval_cases r <;> omega

/-- Molad advance over a common year: twelve lunations. -/
theorem molad_step_common (y : Nat) (hy : 1 ≤ y)
    (h : isHebrewLeapYear y = false) :
    molad (y + 1) = molad y + 9185196 := by
  have hstep := monthsElapsed_step y hy
  rw [h] at hstep
  simp only [Bool.false_eq_true, if_false] at hstep
  unfold molad
  rw [hstep]
  ring

/-- Molad advance over a leap year: thirteen lunations. -/
theorem molad_step_leap (y : Nat) (hy : 1 ≤ y)
    (h : isHebrewLeapYear y = true) :
    molad (y + 1) = molad y + 9950629 := by
  have hstep := monthsElapsed_step y hy
  rw [h] at hstep
  simp only [if_true] at hstep
  unfold molad
  rw [hstep]
  ring

/-- Day/parts advance of the molad over a common year. -/
theorem moladComponents_step_common (y : Nat) (hy : 1 ≤ y)
    (h : isHebrewLeapYear y = false) :
    moladDay (y + 1) =
      moladDay y + 354 + (if 16404 ≤ moladParts y then 1 else 0) ∧
    moladParts (y + 1) = (moladParts y + 9516) % 25920 := by
  have hm := molad_step_common y hy h
  unfold moladDay moladParts at *
  constructor
  · split_ifs with hc <;> omega
  · omega

/-- Day/parts advance of the molad over a leap year. -/
theorem moladComponents_step_leap (y : Nat) (hy : 1 ≤ y)
    (h : isHebrewLeapYear y = true) :
    moladDay (y + 1) =
      moladDay y + 383 + (if 2651 ≤ moladParts y then 1 else 0) ∧
    moladParts (y + 1) = (moladParts y + 23269) % 25920 := by
  have hm := molad_step_leap y hy h
  unfold moladDay moladParts at *
  constructor
  · split_ifs with hc <;> omega
  · omega

/-- Core dehiyyot inequality for a common year: the next year start is at
least 353 days later.  The interesting case is a Tuesday molad under
GaTaRaD: the twelve-lunation advance of 4d 8h 876p then forces molad
zaken in the following year. -/
theorem gap_common_core (D P : Nat) (Lp Ln : Bool) (hP : P < 25920) :
    delayedYearStart D P false Lp + 353 ≤
    delayedYearStart (D + 354 + (if 16404 ≤ P then 1 else 0))
      ((P + 9516) % 25920) Ln false := by
  cases Lp <;> cases Ln <;>
    (simp only [delayedYearStart, eq_self_iff_true, and_true, true_and,
      Bool.true_eq_false, Bool.false_eq_true, and_false, false_and,
      or_false, false_or]) <;>
    split_ifs <;> omega

/-- Core dehiyyot inequality for a leap year (whose predecessor is then a
common year): the next year start is at least 383 days later. -/
theorem gap_leap_core (D P : Nat) (Ln : Bool) (hP : P < 25920) :
    delayedYearStart D P true false + 383 ≤
    delayedYearStart (D + 383 + (if 2651 ≤ P then 1 else 0))
      ((P + 23269) % 25920) Ln true := by
  cases Ln <;>
    (simp only [delayedYearStart, eq_self_iff_true, and_true, true_and,
      Bool.true_eq_false, Bool.false_eq_true, and_false, false_and,
      or_false, false_or]) <;>
    split_ifs <;> omega

/-- Year-length lower bounds: every year has at least 353 days, every
leap year at least 383. -/
theorem elapsed_gap (y : Nat) (hy : 1 ≤ y) :
    elapsedDays y + 353 ≤ elapsedDays (y + 1) ∧
    (isHebrewLeapYear y = true →
      elapsedDays y + 383 ≤ elapsedDays (y + 1)) := by
  have hP : moladParts y < 25920 := Nat.mod_lt _ (by norm_num)
  by_cases hl : isHebrewLeapYear y = true
  · have hprev := noConsecutiveLeap y hy hl
    obtain ⟨hd, hp⟩ := moladComponents_step_leap y hy hl
    have hcore := gap_leap_core (moladDay y) (moladParts y)
      (isHebrewLeapYear (y + 1)) hP
    unfold elapsedDays
    rw [hl, hprev, Nat.add_sub_cancel, hd, hp, hl]
    exact ⟨by omega, fun _ => hcore⟩
  · have hl' : isHebrewLeapYear y = false := by
      cases hb : isHebrewLeapYear y
      · rfl
      · exact absurd hb hl
    obtain ⟨hd, hp⟩ := moladComponents_step_common y hy hl'
    have hcore := gap_common_core (moladDay y) (moladParts y)
      (isHebrewLeapYear (y - 1)) (isHebrewLeapYear (y + 1)) hP
    unfold elapsedDays
    rw [hl', Nat.add_sub_cancel, hd, hp, hl']
    exact ⟨by omega, fun hc => absurd hc Bool.false_ne_true⟩

/-- Year starts are monotone. -/
theorem elapsed_mono (a b : Nat) (ha : 1 ≤ a) (hab : a ≤ b) :
    elapsedDays a ≤ elapsedDays b := by
  induction b with
  | zero => exact absurd hab (by omega)
  | succ b ih =>
    rcases Nat.lt_or_ge a (b + 1) with hlt | hge
    · have hb : 1 ≤ b := by omega
      have h1 := (elapsed_gap b hb).1
      have h2 := ih (by omega)
      omega
    · have : a = b + 1 := by omega
      rw [this]

/-- Year starts grow at least linearly. -/
theorem elapsed_lower (y : Nat) (hy : 1 ≤ y) :
    353 * (y - 1) + 1 ≤ elapsedDays y := by
  induction y with
  | zero => exact absurd hy (by omega)
  | succ n ih =>
    by_cases hn : n = 0
    · subst hn
      have h : elapsedDays 1 = 1 := by decide
      simp [h]
    · have h1 := ih (by omega)
      have h2 := (elapsed_gap n (by omega)).1
      omega

/-- The descending scan finds the year whose start interval contains
`n`. -/
theorem yearSearchGo_eq (n y : Nat) (hy : 1 ≤ y) (h1 : elapsedDays y ≤ n)
    (h2 : n < elapsedDays (y + 1)) :
    ∀ k, y ≤ k → yearSearchGo n k = y := by
  intro k
  induction k with
  | zero => exact fun hk => absurd hk (by omega)
  | succ k ih =>
    intro hk
    rw [yearSearchGo]
    by_cases he : elapsedDays (k + 1) ≤ n
    · rw [if_pos he]
      by_contra hne
      have hmono : elapsedDays (y + 1) ≤ elapsedDays (k + 1) :=
        elapsed_mono (y + 1) (k + 1) (by omega) (by omega)
      omega
    · rw [if_neg he]
      apply ih
      by_contra hyk
      have hyeq : y = k + 1 := by omega
      rw [hyeq] at h1
      exact he h1

/-- `yearOf` resolves to the unique year whose interval contains `n`. -/
theorem yearOf_eq (n y : Nat) (hy : 1 ≤ y) (h1 : elapsedDays y ≤ n)
    (h2 : n < elapsedDays (y + 1)) : yearOf n = y := by
  unfold yearOf
  apply yearSearchGo_eq n y hy h1 h2
  have := elapsed_lower y hy
  omega

/-- Days before a month plus the month's own length fit inside the sum of
all month lengths. -/
theorem daysBeforeIn_add_le (year target : Nat) (l : List Nat)
    (hmem : target ∈ l) :
    daysBeforeIn year target l + daysInMonth target year ≤
      (l.map (fun m => daysInMonth m year)).sum := by
  induction l with
  | nil => simp at hmem
  | cons m rest ih =>
    by_cases hm : m = target
    · subst hm
      simp [daysBeforeIn]
    · rcases List.mem_cons.mp hmem with he | hmem'
      · exact absurd he.symm hm
      · have := ih hmem'
        simp only [daysBeforeIn, hm, if_false, List.map_cons, List.sum_cons]
        omega

/-- The month scan inverts the cumulative day offset. -/
theorem monthScan_finds (year d target : Nat) (hd1 : 1 ≤ d)
    (hdm : d ≤ daysInMonth target year) :
    ∀ l : List Nat, target ∈ l →
      monthScan year (daysBeforeIn year target l + (d - 1)) l = (target, d) := by
  intro l
  induction l with
  | nil => exact fun h => absurd h (by simp)
  | cons m rest ih =>
    intro hmem
    by_cases hm : m = target
    · subst hm
      have hz : daysBeforeIn year m (m :: rest) = 0 := by simp [daysBeforeIn]
      rw [hz]
      rw [monthScan]
      rw [if_pos (by omega)]
      have : d - 1 + 1 = d := by omega
      rw [Nat.zero_add, this]
    · rcases List.mem_cons.mp hmem with he | hmem'
      · exact absurd he.symm hm
      · have hz : daysBeforeIn year target (m :: rest) =
            daysInMonth m year + daysBeforeIn year target rest := by
          simp [daysBeforeIn, hm]
        rw [hz]
        rw [monthScan]
        rw [if_neg (by omega)]
        have harith :
            daysInMonth m year + daysBeforeIn year target rest + (d - 1) -
              daysInMonth m year = daysBeforeIn year target rest + (d - 1) := by
          omega
        rw [harith]
        exact ih hmem'

/-- The month lengths of a year sum to at most the year's length: the
Cheshvan/Kislev encoding by the final digit of the year length, combined
with the 353/383 lower bounds, keeps the twelve or thirteen months inside
the year. -/
theorem monthsTotal_le (y : Nat) (hy : 1 ≤ y) :
    ((monthsInOrder y).map (fun m => daysInMonth m y)).sum ≤ daysInYear y := by
  have hgap := elapsed_gap y hy
  by_cases hl : isHebrewLeapYear y = true
  · have h383 := hgap.2 hl
    simp only [monthsInOrder, hl, if_true, List.map_cons, List.map_nil,
      List.sum_cons, List.sum_nil]
    simp [daysInMonth, longCheshvan, shortKislev, daysInYear, hl]
    split_ifs <;> omega
  · have hl' : isHebrewLeapYear y = false := by
      cases hb : isHebrewLeapYear y
      · rfl
      · exact absurd hb hl
    have h353 := hgap.1
    simp only [monthsInOrder, hl', Bool.false_eq_true, if_false,
      List.map_cons, List.map_nil, List.sum_cons, List.sum_nil]
    simp [daysInMonth, longCheshvan, shortKislev, daysInYear, hl']
    split_ifs <;> omega

/-- Unpacking of the source validity predicate. -/
theorem isValid_spec (d m y : Nat) (h : isValidHebrewDate d m y = true) :
    1 ≤ d ∧ 1 ≤ m ∧ m ≤ 13 ∧ 1 ≤ y ∧
    (m = 13 → isHebrewLeapYear y = true) ∧ d ≤ daysInMonth m y := by
  unfold isValidHebrewDate at h
  split_ifs at h with h1 h2
  simp only [Bool.or_eq_true, decide_eq_true_eq, not_or] at h1
  simp only [Bool.and_eq_true, Bool.not_eq_true', decide_eq_true_eq] at h2 h
  refine ⟨by omega, by omega, by omega, by omega, ?_, h⟩
  intro h13
  by_contra hfalse
  have : isHebrewLeapYear y = false := by
    cases hb : isHebrewLeapYear y
    · rfl
    · exact absurd hb hfalse
  exact h2 ⟨h13, this⟩

/-- Every valid month number occurs in the month order of its year. -/
theorem mem_monthsInOrder (m y : Nat) (h1 : 1 ≤ m) (h13 : m ≤ 13)
    (hleap : m = 13 → isHebrewLeapYear y = true) : m ∈ monthsInOrder y := by
  unfold monthsInOrder
  by_cases hl : isHebrewLeapYear y = true
  · rw [if_pos hl]
    simp only [List.mem_cons, List.not_mem_nil, or_false]
    omega
  · rw [if_neg hl]
    have hne : m ≠ 13 := fun he => hl (hleap he)
    simp only [List.mem_cons, List.not_mem_nil, or_false]
    omega

/-- Core round-trip at the triple level: converting a valid Hebrew date
to its absolute day and back recovers the same triple. -/
theorem fromAbs_toAbs (d m y : Nat) (h : isValidHebrewDate d m y = true) :
    fromAbs (toAbs d m y) = (d, m, y) := by
  obtain ⟨hd1, hm1, hm13, hy1, hml, hdm⟩ := isValid_spec d m y h
  have hmem := mem_monthsInOrder m y hm1 hm13 hml
  have hsum := daysBeforeIn_add_le y m (monthsInOrder y) hmem
  have htot := monthsTotal_le y hy1
  have hgap := (elapsed_gap y hy1).1
  have hub : toAbs d m y < elapsedDays (y + 1) := by
    unfold toAbs
    unfold daysInYear at htot
    omega
  have hlb : elapsedDays y ≤ toAbs d m y := by
    unfold toAbs
    omega
  have hy' := yearOf_eq (toAbs d m y) y hy1 hlb hub
  have ho : toAbs d m y - elapsedDays y =
      daysBeforeIn y m (monthsInOrder y) + (d - 1) := by
    unfold toAbs
    omega
  simp only [fromAbs, hy', ho,
    monthScan_finds y d m hd1 hdm (monthsInOrder y) hmem]

/-- A valid date from its parts. -/
theorem isValid_of_parts (d m y : Nat) (hd : 1 ≤ d) (hm : 1 ≤ m)
    (hm13 : m ≤ 13) (hy : 1 ≤ y)
    (hadar : m = 13 → isHebrewLeapYear y = true)
    (hlen : d ≤ daysInMonth m y) : isValidHebrewDate d m y = true := by
  unfold isValidHebrewDate
  rw [if_neg, if_neg]
  · exact decide_eq_true hlen
  · simp only [Bool.and_eq_true, decide_eq_true_eq, Bool.not_eq_true']
    rintro ⟨h13, hfalse⟩
    rw [hadar h13] at hfalse
    exact absurd hfalse (by simp)
  · simp only [Bool.or_eq_true, decide_eq_true_eq]
    omega

/-- Unpacking of the engine's constructor validity. -/
theorem hdateValid_spec (d m y : Nat) (h : hdateValid d m y = true) :
    1 ≤ d ∧ 1 ≤ m ∧ m ≤ 13 ∧ 1 ≤ y ∧
    (m = 13 → isHebrewLeapYear y = true) ∧ d ≤ daysInMonth m y := by
  unfold hdateValid at h
  simp only [Bool.and_eq_true, Bool.or_eq_true, decide_eq_true_eq,
    bne_iff_ne, ne_eq] at h
  obtain ⟨⟨⟨⟨⟨h1, h2⟩, h3⟩, h4⟩, h5⟩, h6⟩ := h
  refine ⟨h1, h2, h3, h4, ?_, h6⟩
  intro h13
  rcases h5 with hne | ht
  · exact absurd h13 hne
  · exact ht

/-- The engine's constructor validity from its parts. -/
theorem hdateValid_of_parts (d m y : Nat) (hd : 1 ≤ d) (hm : 1 ≤ m)
    (hm13 : m ≤ 13) (hy : 1 ≤ y)
    (hadar : m = 13 → isHebrewLeapYear y = true)
    (hlen : d ≤ daysInMonth m y) : hdateValid d m y = true := by
  unfold hdateValid
  simp only [Bool.and_eq_true, Bool.or_eq_true, decide_eq_true_eq,
    bne_iff_ne, ne_eq]
  refine ⟨⟨⟨⟨⟨hd, hm⟩, hm13⟩, hy⟩, ?_⟩, hlen⟩
  by_cases h13 : m = 13
  · exact Or.inr (hadar h13)
  · exact Or.inl h13

/-- The engine's constructor validity and the source's validity predicate
agree. -/
theorem hdateValid_eq_isValid (d m y : Nat) :
    hdateValid d m y = isValidHebrewDate d m y := by
  rw [Bool.eq_iff_iff]
  constructor
  · intro h
    obtain ⟨h1, h2, h3, h4, h5, h6⟩ := hdateValid_spec d m y h
    exact isValid_of_parts d m y h1 h2 h3 h4 h5 h6
  · intro h
    obtain ⟨h1, h2, h3, h4, h5, h6⟩ := isValid_spec d m y h
    exact hdateValid_of_parts d m y h1 h2 h3 h4 h5 h6

/-- Month lengths never exceed 30. -/
theorem daysInMonth_le (m y : Nat) : daysInMonth m y ≤ 30 := by
  unfold daysInMonth
  split_ifs <;> omega

/-- Month-name lookup succeeds on 1..13. -/
theorem hebrewMonthName_isSome (m : Nat) (h1 : 1 ≤ m) (h13 : m ≤ 13) :
    ∃ name, hebrewMonthName m = some name := by
  interval_cases m <;> exact ⟨_, rfl⟩

/-- On a valid date whose year is not a multiple of 1000,
`hebrewToGregorian` succeeds and records the absolute day. -/
theorem hebrewToGregorian_ok (d m y : Nat)
    (hv : isValidHebrewDate d m y = true) (hy : y % 1000 ≠ 0) :
    ∃ rec, hebrewToGregorian d m y = .ok rec ∧
      rec.gregorianDate = toAbs d m y ∧
      rec.hebrewDay = d ∧ rec.hebrewYear = y := by
  obtain ⟨hd1, hm1, hm13, hy1, hml, hdm⟩ := isValid_spec d m y hv
  obtain ⟨name, hname⟩ := hebrewMonthName_isSome m hm1 hm13
  have hd30 : d ≤ 30 := le_trans hdm (daysInMonth_le m y)
  obtain ⟨ds, hds⟩ := toHebrewNumeral_ok_in_range d hd1 (by omega)
  obtain ⟨ys, hys⟩ := toHebrewNumeral_ok_in_range (y % 1000)
    (by omega) (by omega)
  refine ⟨{ hebrewDateString := ds ++ " " ++ name ++ " " ++ ys
            hebrewYear := y
            hebrewMonth := name
            hebrewDay := d
            gregorianDate := toAbs d m y }, ?_, rfl, rfl, rfl⟩
  unfold hebrewToGregorian
  rw [hdateValid_eq_isValid, hv, if_neg (by simp), hname, hds]
  unfold formatHebrewYear
  rw [hys]

/-- On an invalid date `hebrewToGregorian` reports `InvalidHebrewDate`. -/
theorem h2g_of_invalid (d m y : Nat) (h : isValidHebrewDate d m y = false) :
    hebrewToGregorian d m y = .error .invalidHebrewDate := by
  unfold hebrewToGregorian
  rw [hdateValid_eq_isValid, h, if_pos rfl]

/-- `gregorianToHebrew` succeeds on the absolute day of a valid date
whose year is not a multiple of 1000, recovering day and year. -/
theorem gregorianToHebrew_ok (d m y : Nat)
    (hv : isValidHebrewDate d m y = true) (hy : y % 1000 ≠ 0) :
    ∃ rec2, gregorianToHebrew (toAbs d m y) = .ok rec2 ∧
      rec2.hebrewDay = d ∧ rec2.hebrewYear = y := by
  obtain ⟨hd1, hm1, hm13, hy1, hml, hdm⟩ := isValid_spec d m y hv
  obtain ⟨name, hname⟩ := hebrewMonthName_isSome m hm1 hm13
  have hd30 : d ≤ 30 := le_trans hdm (daysInMonth_le m y)
  obtain ⟨ds, hds⟩ := toHebrewNumeral_ok_in_range d hd1 (by omega)
  obtain ⟨ys, hys⟩ := toHebrewNumeral_ok_in_range (y % 1000)
    (by omega) (by omega)
  have ht := fromAbs_toAbs d m y hv
  have hys' : formatHebrewYear y = .ok ys := hys
  refine ⟨{ hebrewDateString := ds ++ " " ++ name ++ " " ++ ys
            hebrewYear := y
            hebrewMonth := name
            hebrewDay := d
            gregorianDate := toAbs d m y }, ?_, rfl, rfl⟩
  unfold gregorianToHebrew
  rw [ht]
  show mkHebrewRecord (toAbs d m y) d m y = _
  unfold mkHebrewRecord
  simp only [hname, hds, hys']

/-- Claim C2 counterexample: (1, Tishrei, 5000) is a valid Hebrew date
by `isValidHebrewDate`, but `hebrewToGregorian` fails on it outright —
`formatHebrewYear` reduces the year to `5000 mod 1000 = 0`, which is
outside `toHebrewNumeral`'s domain — so the claimed round trip is
impossible for every valid date whose year is a multiple of 1000. -/
theorem roundtrip_fails_at_year_5000 :
    isValidHebrewDate 1 7 5000 = true ∧
    hebrewToGregorian 1 7 5000 = .error .calculationError := by
  constructor
  · decide
  · decide

/-- Claim C2 (amended): for every valid (day, month, year) triple whose
year is not a multiple of 1000, `hebrewToGregorian` succeeds and
converting the resulting Gregorian date back with `gregorianToHebrew`
recovers the same (day, month, year) triple.  (For years divisible by
1000 both conversions fail on year formatting, so no round trip
exists.) -/
theorem roundtrip_amended (d m y : Nat)
    (hv : isValidHebrewDate d m y = true) (hy : y % 1000 ≠ 0) :
    ∃ rec rec2, hebrewToGregorian d m y = .ok rec ∧
      gregorianToHebrew rec.gregorianDate = .ok rec2 ∧
      fromAbs rec.gregorianDate = (d, m, y) ∧
      rec2.hebrewDay = d ∧ rec2.hebrewYear = y := by
  obtain ⟨rec, hrec, hg, hd, hyy⟩ := hebrewToGregorian_ok d m y hv hy
  obtain ⟨rec2, hrec2, hd2, hy2⟩ := gregorianToHebrew_ok d m y hv hy
  refine ⟨rec, rec2, hrec, ?_, ?_, hd2, hy2⟩
  · rw [hg]
    exact hrec2
  · rw [hg]
    exact fromAbs_toAbs d m y hv

/-- Witness for the amended C2 theorem at (1, Tishrei, year 2). -/
theorem roundtrip_amended_witness :
    isValidHebrewDate 1 7 2 = true ∧ (2 : Nat) % 1000 ≠ 0 ∧
    (∃ rec rec2, hebrewToGregorian 1 7 2 = .ok rec ∧
      gregorianToHebrew rec.gregorianDate = .ok rec2 ∧
      fromAbs rec.gregorianDate = (1, 7, 2) ∧
      rec2.hebrewDay = 1 ∧ rec2.hebrewYear = 2) :=
  ⟨by decide, by decide, roundtrip_amended 1 7 2 (by decide) (by decide)⟩

/-- Claim C3: `hebrewToGregorian` fails with `InvalidHebrewDate` on every
(day, month, year) violating the calendar invariants — day beyond the
month's actual length, month 13 in a non-leap year, or any out-of-range
component — and succeeds only on valid dates. -/
theorem hebrewToGregorian_validity (d m y : Nat) :
    (isValidHebrewDate d m y = false →
      hebrewToGregorian d m y = .error .invalidHebrewDate) ∧
    (∀ rec, hebrewToGregorian d m y = .ok rec →
      isValidHebrewDate d m y = true) := by
  refine ⟨h2g_of_invalid d m y, fun rec hrec => ?_⟩
  cases hb : isValidHebrewDate d m y
  · rw [h2g_of_invalid d m y hb] at hrec
    exact absurd hrec (by simp)
  · rfl

/-- Witness for the C3 theorem: day 0 is rejected with
`InvalidHebrewDate`. -/
theorem hebrewToGregorian_validity_witness :
    hebrewToGregorian 0 1 1 = .error .invalidHebrewDate :=
  (hebrewToGregorian_validity 0 1 1).1 (by decide)

/-- Claim C10: `formatHebrewYear` is `toHebrewNumeral` of the year mod
1000; the residue 0 (every positive year divisible by 1000) is outside
the numeral's domain, so formatting throws the out-of-range calculation
error and `hebrewToGregorian` fails on every such year. -/
theorem formatHebrewYear_thousands (y : Nat) :
    formatHebrewYear y = toHebrewNumeral (y % 1000) ∧
    (y % 1000 = 0 → formatHebrewYear y = .error .calculationError) ∧
    (1 ≤ y % 1000 → ∃ s, formatHebrewYear y = .ok s) ∧
    (∀ d m, y % 1000 = 0 → (hebrewToGregorian d m y).toOption = none) := by
  have hlt : y % 1000 < 1000 := Nat.mod_lt _ (by norm_num)
  refine ⟨rfl, fun h0 => ?_, fun h1 => ?_, fun d m h0 => ?_⟩
  · unfold formatHebrewYear
    rw [h0]
    exact toHebrewNumeral_out_of_range 0 (by omega)
  · exact toHebrewNumeral_ok_in_range _ h1 (by omega)
  · cases hb : isValidHebrewDate d m y
    · rw [h2g_of_invalid d m y hb]
      rfl
    · obtain ⟨hd1, hm1, hm13, hy1, hml, hdm⟩ := isValid_spec d m y hb
      obtain ⟨name, hname⟩ := hebrewMonthName_isSome m hm1 hm13
      have hd30 : d ≤ 30 := le_trans hdm (daysInMonth_le m y)
      obtain ⟨ds, hds⟩ := toHebrewNumeral_ok_in_range d hd1 (by omega)
      have hyerr : formatHebrewYear y = .error .calculationError := by
        unfold formatHebrewYear
        rw [h0]
        exact toHebrewNumeral_out_of_range 0 (by omega)
      unfold hebrewToGregorian
      rw [hdateValid_eq_isValid, hb, if_neg (by simp), hname, hds, hyerr]
      rfl

/-- Witness for the C10 theorem at year 5000. -/
theorem formatHebrewYear_thousands_witness :
    formatHebrewYear 5000 = .error .calculationError ∧
    (hebrewToGregorian 1 7 5000).toOption = none :=
  ⟨(formatHebrewYear_thousands 5000).2.1 (by decide),
   (formatHebrewYear_thousands 5000).2.2.2 1 7 (by decide)⟩

/-- Claim C1 counterexample: the rules are not first-match-wins — on an
`EnhancedHebrewDate` with both `isShabbat` and `isFastDay` set, the
unguarded fast-day rule (evaluated last) overwrites the Shabbat block, so
the verdict has `noAuctions = false` and `overrideAllowed = true` instead
of the claimed full Shabbat block. -/
theorem shabbatPriority_fails_on_fastday :
    shabbatFastDayExample.isShabbat = true ∧
    (classifyRestrictions shabbatFastDayExample "05:00" "19:00").noAuctions = false ∧
    (classifyRestrictions shabbatFastDayExample "05:00" "19:00").overrideAllowed = true ∧
    classifyRestrictions shabbatFastDayExample "05:00" "19:00" =
      fastDayRestrictions "05:00" "19:00" := by
  refine ⟨rfl, rfl, rfl, rfl⟩

/-- Claim C1 (amended): the day-classification rules are applied in
sequence with later matches overwriting earlier results, and only the
Rosh Chodesh rule is guarded against Shabbat and Yom Tov.  For every
`EnhancedHebrewDate` with `isShabbat` true and `isYomTov`, `isFastDay`
false — as holds for every date the repository's own enrichment can
produce — the result is the full Shabbat block (`noAuctions = true`,
`overrideAllowed = false`) regardless of the remaining flags; in
particular a Saturday that is also Rosh Chodesh is fully blocked, not
partially restricted. -/
theorem shabbatPriority_amended (e : EnhancedHebrewDate) (a t : String)
    (hs : e.isShabbat = true) (hy : e.isYomTov = false)
    (hf : e.isFastDay = false) :
    classifyRestrictions e a t = shabbatRestrictions := by
  simp [classifyRestrictions, hs, hy, hf]

/-- Witness for the amended C1 theorem: a Saturday that is also Rosh
Chodesh receives the full Shabbat block. -/
theorem shabbatPriority_amended_witness :
    shabbatRoshChodeshExample.isShabbat = true ∧
    shabbatRoshChodeshExample.isRoshChodesh = true ∧
    classifyRestrictions shabbatRoshChodeshExample "05:00" "19:00" =
      shabbatRestrictions :=
  ⟨rfl, rfl,
    shabbatPriority_amended shabbatRoshChodeshExample "05:00" "19:00" rfl rfl rfl⟩

/-- The window scan returns `none` exactly when no restricted window
matches the current time. -/
theorem findRestrictedWindow_eq_none (t : String) (l : List TimeRestriction) :
    findRestrictedWindow t l = none ↔
      ∀ w ∈ l, isTimeBetween t w.startTime w.endTime = false := by
  induction l with
  | nil => simp [findRestrictedWindow]
  | cons v rest ih =>
    by_cases hv : isTimeBetween t v.startTime v.endTime = true
    · simp [findRestrictedWindow, hv]
    · rw [findRestrictedWindow, if_neg hv, ih]
      constructor
      · intro h w hw
        rcases List.mem_cons.mp hw with hw | hw
        · subst hw
          simpa using hv
        · exact h w hw
      · intro h w hw
        exact h w (List.mem_cons_of_mem v hw)

/-- The window scan returns a window that is in the list and matches the
current time. -/
theorem findRestrictedWindow_eq_some (t : String) (l : List TimeRestriction)
    (w : TimeRestriction) (h : findRestrictedWindow t l = some w) :
    w ∈ l ∧ isTimeBetween t w.startTime w.endTime = true := by
  induction l with
  | nil => simp [findRestrictedWindow] at h
  | cons v rest ih =>
    by_cases hv : isTimeBetween t v.startTime v.endTime = true
    · rw [findRestrictedWindow, if_pos hv] at h
      cases h
      exact ⟨by simp, hv⟩
    · rw [findRestrictedWindow, if_neg hv] at h
      obtain ⟨hm, hb⟩ := ih h
      exact ⟨by simp [hm], hb⟩

/-- Claim C6: `isAuctionPermitted` denies with the day's reason whenever
the verdict has `noAuctions = true`; on a partially-restricted day it
denies exactly when the clock time falls within some restricted window
(reporting the first matching window's reason), and permits — with the
fixed "Auctions permitted" reason — whenever the time falls within no
restricted window. -/
theorem isAuctionPermitted_spec (r : AuctionRestrictions) (t : String) :
    (r.noAuctions = true →
      isAuctionPermittedOn r t =
        { permitted := false
          reason := r.specialConsiderations
          reasonHebrew := r.specialConsiderationsHebrew }) ∧
    (r.noAuctions = false →
      (((isAuctionPermittedOn r t).permitted = false) ↔
        ∃ w ∈ r.restrictedHours, isTimeBetween t w.startTime w.endTime = true) ∧
      (∀ w, findRestrictedWindow t r.restrictedHours = some w →
        isAuctionPermittedOn r t =
          { permitted := false
            reason := w.description
            reasonHebrew := w.descriptionHebrew } ∧
        w ∈ r.restrictedHours ∧
        isTimeBetween t w.startTime w.endTime = true) ∧
      ((∀ w ∈ r.restrictedHours, isTimeBetween t w.startTime w.endTime = false) →
        isAuctionPermittedOn r t =
          { permitted := true
            reason := "Auctions permitted"
            reasonHebrew := "מכירות פומביות מותרות" })) := by
  constructor
  · intro h
    simp [isAuctionPermittedOn, h]
  · intro h
    refine ⟨?_, ?_, ?_⟩
    · rw [isAuctionPermittedOn, if_neg (by simp [h])]
      cases hf : findRestrictedWindow t r.restrictedHours with
      | some w =>
        obtain ⟨hm, hb⟩ := findRestrictedWindow_eq_some t _ w hf
        simpa using ⟨w, hm, hb⟩
      | none =>
        simp only []
        constructor
        · intro hfalse
          exact absurd hfalse (by simp)
        · rintro ⟨w, hw, hb⟩
          have := (findRestrictedWindow_eq_none t r.restrictedHours).mp hf w hw
          rw [this] at hb
          exact absurd hb (by simp)
    · intro w hw
      obtain ⟨hm, hb⟩ := findRestrictedWindow_eq_some t _ w hw
      refine ⟨?_, hm, hb⟩
      rw [isAuctionPermittedOn, if_neg (by simp [h]), hw]
    · intro hall
      rw [isAuctionPermittedOn, if_neg (by simp [h]),
        (findRestrictedWindow_eq_none t r.restrictedHours).mpr hall]

/-- Witness for the C6 theorem: on the Shabbat verdict the check denies
with the Shabbat reason. -/
theorem isAuctionPermitted_spec_witness :
    isAuctionPermittedOn shabbatRestrictions "10:00" =
      { permitted := false
        reason := "No auctions permitted on Shabbat"
        reasonHebrew := "אסור לערוך מכירות פומביות בשבת" } :=
  (isAuctionPermitted_spec shabbatRestrictions "10:00").1 rfl

/-- Claim C7: standard gematria returns 18 for "חי" and 376 for "שלום"
(final mem taking its base value 40), and the computation fails with
`NoHebrewLettersFound` exactly when the cleaned text is empty. -/
theorem calculateGematria_values_and_empty_error :
    calculateGematria "חי" = .ok 18 ∧ calculateGematria "שלום" = .ok 376 ∧
    ∀ s : String,
      (calculateGematria s = .error .noHebrewLettersFound ↔ cleanText s = []) := by
  refine ⟨by decide, by decide, fun s => ?_⟩
  constructor
  · intro h
    by_contra hne
    have hletters : ∀ c ∈ cleanText s, isHebrewLetter c = true := by
      intro c hc
      exact (List.mem_filter.mp hc).2
    obtain ⟨v, hv⟩ := calculateStandardGematria_ok_of_letters _ hletters
    have hempty : (cleanText s).isEmpty = false := by
      cases hcl : cleanText s with
      | nil => exact absurd hcl hne
      | cons a l => rfl
    simp [calculateGematria, hempty, hv] at h
  · intro h
    simp [calculateGematria, h]

/-! ### Pipeline and cache lemmas -/

/-- With the holiday flags pinned to false, only three verdicts are
reachable. -/
theorem classify_cases (e : EnhancedHebrewDate) (a t : String)
    (hy : e.isYomTov = false) (hf : e.isFastDay = false) :
    classifyRestrictions e a t = shabbatRestrictions ∨
    classifyRestrictions e a t = roshChodeshRestrictions ∨
    classifyRestrictions e a t = defaultRestrictions := by
  unfold classifyRestrictions
  rw [hy, hf]
  cases hs : e.isShabbat
  · cases hr : e.isRoshChodesh
    · right
      right
      simp
    · right
      left
      simp
  · left
    simp

/-- Claim C9: every `EnhancedHebrewDate` the pipeline produces has
`isYomTov`, `isFastDay` and `isCholedMoed` false — holiday enrichment is
a no-op — so `getAuctionRestrictions` can only ever return the Shabbat
full block, the Rosh Chodesh partial restriction, or the unrestricted
default; the Yom Tov block and the fast-day window are unreachable. -/
theorem enrichment_noop_and_verdicts (inst : GregInstant)
    (zf : GregInstant → Location → ZmanAstro) (loc : Location)
    (e : EnhancedHebrewDate) (he : getEnhancedDatePure inst = .ok e) :
    e.isYomTov = false ∧ e.isFastDay = false ∧ e.isCholedMoed = false ∧
    getAuctionRestrictionsPure zf inst loc =
      .ok (classifyRestrictions e (zf inst loc).alotClock
        (zf inst loc).tzaitClock) ∧
    (classifyRestrictions e (zf inst loc).alotClock
        (zf inst loc).tzaitClock = shabbatRestrictions ∨
     classifyRestrictions e (zf inst loc).alotClock
        (zf inst loc).tzaitClock = roshChodeshRestrictions ∨
     classifyRestrictions e (zf inst loc).alotClock
        (zf inst loc).tzaitClock = defaultRestrictions) := by
  have hflags : e.isYomTov = false ∧ e.isFastDay = false ∧
      e.isCholedMoed = false := by
    unfold getEnhancedDatePure getEnhancedHebrewDate at he
    cases hb : gregorianToHebrew inst.absDay with
    | error err =>
      rw [hb] at he
      exact absurd he (by simp [Except.map, Except.mapError])
    | ok base =>
      rw [hb] at he
      injection he with he2
      rw [← he2]
      exact ⟨rfl, rfl, rfl⟩
  refine ⟨hflags.1, hflags.2.1, hflags.2.2, ?_,
    classify_cases e _ _ hflags.1 hflags.2.1⟩
  unfold getAuctionRestrictionsPure
  rw [he]
  rfl

/-- A cache hit is a cache binding. -/
theorem cacheGet_mem (st : Cache) (k : CacheKey) (v : CacheVal)
    (h : cacheGet st k = some v) : (k, v) ∈ st := by
  induction st with
  | nil => simp [cacheGet] at h
  | cons p rest ih =>
    obtain ⟨k', v'⟩ := p
    rw [cacheGet] at h
    by_cases he : k' = k
    · rw [if_pos he] at h
      injection h with h2
      rw [← he, ← h2]
      exact List.mem_cons_self _ _
    · rw [if_neg he] at h
      exact List.mem_cons_of_mem _ (ih h)

/-- The empty cache is sound. -/
theorem cacheOK_nil (zf : GregInstant → Location → ZmanAstro) :
    CacheOK zf [] :=
  fun _ _ h => absurd h (by simp)

/-- TTL expiry preserves soundness. -/
theorem cacheOK_delete (zf : GregInstant → Location → ZmanAstro)
    (st : Cache) (k : CacheKey) (h : CacheOK zf st) :
    CacheOK zf (cacheDelete st k) :=
  fun k' v' hm => h k' v' (List.mem_of_mem_filter hm)

/-- Inserting a sound binding preserves soundness. -/
theorem cacheOK_set (zf : GregInstant → Location → ZmanAstro)
    (st : Cache) (k : CacheKey) (v : CacheVal) (h : CacheOK zf st)
    (hv : entryOK zf k v) : CacheOK zf (cacheSet st k v) := by
  intro k' v' hm
  rcases List.mem_cons.mp hm with he | hm'
  · injection he with he1 he2
    rw [he1, he2]
    exact hv
  · exact h k' v' hm'

/-- Soundness of a stored conversion result. -/
theorem entryOK_g2h (zf : GregInstant → Location → ZmanAstro)
    (inst : GregInstant) (r : HebrewDateRec)
    (hb : gregorianToHebrew inst.absDay = .ok r) :
    entryOK zf (.kG2H inst) (.vHD r) := by
  unfold entryOK
  refine ⟨?_, ?_, ?_, ?_⟩
  · intro i h
    injection h with h2
    rw [← h2]
    exact ⟨r, hb, rfl⟩
  · intro d' m' y' h
    exact nomatch h
  · intro i h
    exact nomatch h
  · intro day lat long h
    exact nomatch h

/-- Soundness of a stored reverse-conversion result. -/
theorem entryOK_h2g (zf : GregInstant → Location → ZmanAstro)
    (d m y : Nat) (r : HebrewDateRec)
    (hb : hebrewToGregorian d m y = .ok r) :
    entryOK zf (.kH2G d m y) (.vGreg r.gregorianDate) := by
  unfold entryOK
  refine ⟨?_, ?_, ?_, ?_⟩
  · intro i h
    exact nomatch h
  · intro d' m' y' h
    injection h with h1 h2 h3
    rw [← h1, ← h2, ← h3]
    exact ⟨r, hb, rfl⟩
  · intro i h
    exact nomatch h
  · intro day lat long h
    exact nomatch h

/-- Soundness of a stored enhanced date. -/
theorem entryOK_enh (zf : GregInstant → Location → ZmanAstro)
    (inst : GregInstant) (e : EnhancedHebrewDate)
    (hb : getEnhancedDatePure inst = .ok e) :
    entryOK zf (.kEnh inst) (.vEnh e) := by
  unfold entryOK
  refine ⟨?_, ?_, ?_, ?_⟩
  · intro i h
    exact nomatch h
  · intro d' m' y' h
    exact nomatch h
  · intro i h
    injection h with h2
    rw [← h2]
    exact ⟨e, hb, rfl⟩
  · intro day lat long h
    exact nomatch h

/-- Soundness of a stored zmanim result. -/
theorem entryOK_zman (zf : GregInstant → Location → ZmanAstro)
    (inst : GregInstant) (loc : Location) :
    entryOK zf (.kZman inst.absDay loc.latitude loc.longitude)
      (.vZman (getZmanimPure zf inst loc)) := by
  unfold entryOK
  refine ⟨?_, ?_, ?_, ?_⟩
  · intro i h
    exact nomatch h
  · intro d' m' y' h
    exact nomatch h
  · intro i h
    exact nomatch h
  · intro day lat long h
    injection h with h1 h2 h3
    exact ⟨inst, loc, h1, h2, h3, rfl⟩

/-- The facade's `gregorianToHebrew` preserves cache soundness. -/
theorem cacheOK_after_g2h (zf : GregInstant → Location → ZmanAstro)
    (ce : Bool) (st : Cache) (inst : GregInstant) (h : CacheOK zf st) :
    CacheOK zf (stateAfter st (svcGregToHebrew ce st inst)) := by
  unfold svcGregToHebrew
  cases ce
  · cases hb : gregorianToHebrew inst.absDay with
    | error e => simpa [hb, stateAfter, Except.map, Except.mapError] using h
    | ok r => simpa [hb, stateAfter, Except.map, Except.mapError] using h
  · cases hc : cacheGet st (.kG2H inst) with
    | some v => simpa [hc, stateAfter] using h
    | none =>
      cases hb : gregorianToHebrew inst.absDay with
      | error e =>
        simpa [hc, hb, stateAfter, Except.map, Except.mapError] using h
      | ok r =>
        have hset := cacheOK_set zf st _ _ h (entryOK_g2h zf inst r hb)
        simpa [hc, hb, stateAfter, Except.map, Except.mapError] using hset

/-- The facade's `hebrewToGregorian` preserves cache soundness. -/
theorem cacheOK_after_h2g (zf : GregInstant → Location → ZmanAstro)
    (ce : Bool) (st : Cache) (d m y : Nat) (h : CacheOK zf st) :
    CacheOK zf (stateAfter st (svcHebToGreg ce st d m y)) := by
  unfold svcHebToGreg
  cases ce
  · cases hb : hebrewToGregorian d m y with
    | error e => simpa [hb, stateAfter, Except.map, Except.mapError] using h
    | ok r => simpa [hb, stateAfter, Except.map, Except.mapError] using h
  · cases hc : cacheGet st (.kH2G d m y) with
    | some v => simpa [hc, stateAfter] using h
    | none =>
      cases hb : hebrewToGregorian d m y with
      | error e =>
        simpa [hc, hb, stateAfter, Except.map, Except.mapError] using h
      | ok r =>
        have hset := cacheOK_set zf st _ _ h (entryOK_h2g zf d m y r hb)
        simpa [hc, hb, stateAfter, Except.map, Except.mapError] using hset

/-- The facade's `getEnhancedDate` preserves cache soundness. -/
theorem cacheOK_after_enh (zf : GregInstant → Location → ZmanAstro)
    (ce : Bool) (st : Cache) (inst : GregInstant) (h : CacheOK zf st) :
    CacheOK zf (stateAfter st (svcEnhanced ce st inst)) := by
  unfold svcEnhanced
  cases ce
  · cases hb : getEnhancedDatePure inst with
    | error e => simpa [hb, stateAfter, Except.map] using h
    | ok r => simpa [hb, stateAfter, Except.map] using h
  · cases hc : cacheGet st (.kEnh inst) with
    | some v => simpa [hc, stateAfter] using h
    | none =>
      cases hb : getEnhancedDatePure inst with
      | error e => simpa [hc, hb, stateAfter, Except.map] using h
      | ok r =>
        have hset := cacheOK_set zf st _ _ h (entryOK_enh zf inst r hb)
        simpa [hc, hb, stateAfter, Except.map] using hset

/-- The facade's `getZmanim` preserves cache soundness. -/
theorem cacheOK_after_zman (zf : GregInstant → Location → ZmanAstro)
    (ce : Bool) (st : Cache) (inst : GregInstant) (loc : Location)
    (h : CacheOK zf st) :
    CacheOK zf (svcZmanim zf ce st inst loc).2 := by
  unfold svcZmanim
  cases ce
  · simpa using h
  · cases hc : cacheGet st (.kZman inst.absDay loc.latitude loc.longitude) with
    | some v => simpa [hc] using h
    | none =>
      have hset := cacheOK_set zf st _ _ h (entryOK_zman zf inst loc)
      simpa [hc] using hset

/-- Every reachable cache state is sound. -/
theorem cacheOK_of_reachable (zf : GregInstant → Location → ZmanAstro)
    (st : Cache) (h : Reachable zf st) : CacheOK zf st := by
  induction h with
  | empty => exact cacheOK_nil zf
  | stepG2H st ce inst hr ih => exact cacheOK_after_g2h zf ce st inst ih
  | stepH2G st ce d m y hr ih => exact cacheOK_after_h2g zf ce st d m y ih
  | stepEnh st ce inst hr ih => exact cacheOK_after_enh zf ce st inst ih
  | stepZman st ce inst loc hr ih => exact cacheOK_after_zman zf ce st inst loc ih
  | stepExpire st k hr ih => exact cacheOK_delete zf st k ih
  | stepClear st hr ih => exact cacheOK_nil zf

/-- Witness for the C9 theorem at the sample instant. -/
theorem enrichment_noop_and_verdicts_witness :
    getEnhancedDatePure sampleInstant = .ok sampleEnhanced ∧
    (sampleEnhanced.isYomTov = false ∧ sampleEnhanced.isFastDay = false ∧
      sampleEnhanced.isCholedMoed = false ∧
      getAuctionRestrictionsPure zfSample sampleInstant locSample =
        .ok (classifyRestrictions sampleEnhanced
          (zfSample sampleInstant locSample).alotClock
          (zfSample sampleInstant locSample).tzaitClock) ∧
      (classifyRestrictions sampleEnhanced
          (zfSample sampleInstant locSample).alotClock
          (zfSample sampleInstant locSample).tzaitClock =
            shabbatRestrictions ∨
       classifyRestrictions sampleEnhanced
          (zfSample sampleInstant locSample).alotClock
          (zfSample sampleInstant locSample).tzaitClock =
            roshChodeshRestrictions ∨
       classifyRestrictions sampleEnhanced
          (zfSample sampleInstant locSample).alotClock
          (zfSample sampleInstant locSample).tzaitClock =
            defaultRestrictions)) :=
  ⟨by decide,
   enrichment_noop_and_verdicts sampleInstant zfSample locSample
     sampleEnhanced (by decide)⟩

/-- Claim C8 counterexample: the cache key of `getZmanim` drops the clock
time of the instant while the returned record keeps it, so with the cache
enabled a second call on the same calendar day returns the FIRST call's
record — a different value than the cache-disabled computation for the
same input, from a reachable cache state. -/
theorem cache_not_transparent_for_zmanim :
    Reachable zfSample ((svcZmanim zfSample true [] instMorning locSample).2) ∧
    (svcZmanim zfSample true
        ((svcZmanim zfSample true [] instMorning locSample).2)
        instAfternoon locSample).1 ≠
      (svcZmanim zfSample false
        ((svcZmanim zfSample true [] instMorning locSample).2)
        instAfternoon locSample).1 := by
  constructor
  · exact Reachable.stepZman [] true instMorning locSample Reachable.empty
  · decide

/-- Cache lookup immediately after insertion of the same key. -/
theorem cacheGet_set_self (st : Cache) (k : CacheKey) (v : CacheVal) :
    cacheGet (cacheSet st k v) k = some v := by
  rw [cacheSet, cacheGet, if_pos rfl]

/-- Facade conversion, cache off. -/
theorem svcG2H_off_ok (st : Cache) (inst : GregInstant) (r : HebrewDateRec)
    (hb : gregorianToHebrew inst.absDay = .ok r) :
    svcGregToHebrew false st inst = .ok (.vHD r, st) := by
  unfold svcGregToHebrew
  rw [hb]
  rfl

/-- Facade conversion failure, cache off. -/
theorem svcG2H_off_err (st : Cache) (inst : GregInstant) (e : ErrCode)
    (hb : gregorianToHebrew inst.absDay = .error e) :
    svcGregToHebrew false st inst = .error .calculationError := by
  unfold svcGregToHebrew
  rw [hb]
  rfl

/-- Facade conversion, cache hit. -/
theorem svcG2H_hit (st : Cache) (inst : GregInstant) (v : CacheVal)
    (hc : cacheGet st (.kG2H inst) = some v) :
    svcGregToHebrew true st inst = .ok (v, st) := by
  unfold svcGregToHebrew
  rw [hc]
  rfl

/-- Facade conversion, cache miss. -/
theorem svcG2H_miss_ok (st : Cache) (inst : GregInstant) (r : HebrewDateRec)
    (hc : cacheGet st (.kG2H inst) = none)
    (hb : gregorianToHebrew inst.absDay = .ok r) :
    svcGregToHebrew true st inst =
      .ok (.vHD r, cacheSet st (.kG2H inst) (.vHD r)) := by
  unfold svcGregToHebrew
  rw [hc, hb]
  rfl

/-- Facade conversion failure, cache miss. -/
theorem svcG2H_miss_err (st : Cache) (inst : GregInstant) (e : ErrCode)
    (hc : cacheGet st (.kG2H inst) = none)
    (hb : gregorianToHebrew inst.absDay = .error e) :
    svcGregToHebrew true st inst = .error .calculationError := by
  unfold svcGregToHebrew
  rw [hc, hb]
  rfl

/-- Facade reverse conversion, cache off. -/
theorem svcH2G_off_ok (st : Cache) (d m y : Nat) (r : HebrewDateRec)
    (hb : hebrewToGregorian d m y = .ok r) :
    svcHebToGreg false st d m y = .ok (.vGreg r.gregorianDate, st) := by
  unfold svcHebToGreg
  rw [hb]
  rfl

/-- Facade reverse conversion failure, cache off. -/
theorem svcH2G_off_err (st : Cache) (d m y : Nat) (e : ErrCode)
    (hb : hebrewToGregorian d m y = .error e) :
    svcHebToGreg false st d m y = .error .calculationError := by
  unfold svcHebToGreg
  rw [hb]
  rfl

/-- Facade reverse conversion, cache hit. -/
theorem svcH2G_hit (st : Cache) (d m y : Nat) (v : CacheVal)
    (hc : cacheGet st (.kH2G d m y) = some v) :
    svcHebToGreg true st d m y = .ok (v, st) := by
  unfold svcHebToGreg
  rw [hc]
  rfl

/-- Facade reverse conversion, cache miss. -/
theorem svcH2G_miss_ok (st : Cache) (d m y : Nat) (r : HebrewDateRec)
    (hc : cacheGet st (.kH2G d m y) = none)
    (hb : hebrewToGregorian d m y = .ok r) :
    svcHebToGreg true st d m y =
      .ok (.vGreg r.gregorianDate,
        cacheSet st (.kH2G d m y) (.vGreg r.gregorianDate)) := by
  unfold svcHebToGreg
  rw [hc, hb]
  rfl

/-- Facade reverse conversion failure, cache miss. -/
theorem svcH2G_miss_err (st : Cache) (d m y : Nat) (e : ErrCode)
    (hc : cacheGet st (.kH2G d m y) = none)
    (hb : hebrewToGregorian d m y = .error e) :
    svcHebToGreg true st d m y = .error .calculationError := by
  unfold svcHebToGreg
  rw [hc, hb]
  rfl

/-- Facade enhanced date, cache off. -/
theorem svcEnh_off_ok (st : Cache) (inst : GregInstant)
    (e : EnhancedHebrewDate) (hb : getEnhancedDatePure inst = .ok e) :
    svcEnhanced false st inst = .ok (.vEnh e, st) := by
  unfold svcEnhanced
  rw [hb]
  rfl

/-- Facade enhanced date failure, cache off. -/
theorem svcEnh_off_err (st : Cache) (inst : GregInstant) (er : ErrCode)
    (hb : getEnhancedDatePure inst = .error er) :
    svcEnhanced false st inst = .error er := by
  unfold svcEnhanced
  rw [hb]
  rfl

/-- Facade enhanced date, cache hit. -/
theorem svcEnh_hit (st : Cache) (inst : GregInstant) (v : CacheVal)
    (hc : cacheGet st (.kEnh inst) = some v) :
    svcEnhanced true st inst = .ok (v, st) := by
  unfold svcEnhanced
  rw [hc]
  rfl

/-- Facade enhanced date, cache miss. -/
theorem svcEnh_miss_ok (st : Cache) (inst : GregInstant)
    (e : EnhancedHebrewDate) (hc : cacheGet st (.kEnh inst) = none)
    (hb : getEnhancedDatePure inst = .ok e) :
    svcEnhanced true st inst =
      .ok (.vEnh e, cacheSet st (.kEnh inst) (.vEnh e)) := by
  unfold svcEnhanced
  rw [hc, hb]
  rfl

/-- Facade enhanced date failure, cache miss. -/
theorem svcEnh_miss_err (st : Cache) (inst : GregInstant) (er : ErrCode)
    (hc : cacheGet st (.kEnh inst) = none)
    (hb : getEnhancedDatePure inst = .error er) :
    svcEnhanced true st inst = .error er := by
  unfold svcEnhanced
  rw [hc, hb]
  rfl

/-- Facade zmanim, cache off. -/
theorem svcZman_off (zf : GregInstant → Location → ZmanAstro) (st : Cache)
    (inst : GregInstant) (loc : Location) :
    svcZmanim zf false st inst loc =
      (.vZman (getZmanimPure zf inst loc), st) := rfl

/-- Facade zmanim, cache hit. -/
theorem svcZman_hit (zf : GregInstant → Location → ZmanAstro) (st : Cache)
    (inst : GregInstant) (loc : Location) (v : CacheVal)
    (hc : cacheGet st (.kZman inst.absDay loc.latitude loc.longitude) =
      some v) :
    svcZmanim zf true st inst loc = (v, st) := by
  unfold svcZmanim
  rw [hc]
  rfl

/-- Facade zmanim, cache miss. -/
theorem svcZman_miss (zf : GregInstant → Location → ZmanAstro) (st : Cache)
    (inst : GregInstant) (loc : Location)
    (hc : cacheGet st (.kZman inst.absDay loc.latitude loc.longitude) =
      none) :
    svcZmanim zf true st inst loc =
      (.vZman (getZmanimPure zf inst loc),
       cacheSet st (.kZman inst.absDay loc.latitude loc.longitude)
         (.vZman (getZmanimPure zf inst loc))) := by
  unfold svcZmanim
  rw [hc]
  rfl

/-- Claim C8 (amended): on every reachable cache state, the facade's
`gregorianToHebrew`, `hebrewToGregorian` and `getEnhancedDate` return the
same value with the cache enabled as with it disabled — their keys
determine the stored value — and repeated calls of any operation with
identical inputs (including `getZmanim`) return identical values.
`getZmanim` however is NOT cache-transparent: its key omits the clock
time and the location's name, timezone and elevation while the returned
record contains them, so a cached value may differ from the
freshly-computed one for the same input. -/
theorem cache_semantics_amended (zf : GregInstant → Location → ZmanAstro)
    (st : Cache) (hst : Reachable zf st) :
    (∀ ce inst, (svcGregToHebrew ce st inst).map Prod.fst =
      (svcGregToHebrew false st inst).map Prod.fst) ∧
    (∀ ce d m y, (svcHebToGreg ce st d m y).map Prod.fst =
      (svcHebToGreg false st d m y).map Prod.fst) ∧
    (∀ ce inst, (svcEnhanced ce st inst).map Prod.fst =
      (svcEnhanced false st inst).map Prod.fst) ∧
    (∀ ce inst loc,
      svcZmanim zf ce ((svcZmanim zf ce st inst loc).2) inst loc =
        svcZmanim zf ce st inst loc) ∧
    (∀ ce inst v st', svcGregToHebrew ce st inst = .ok (v, st') →
      svcGregToHebrew ce st' inst = .ok (v, st')) ∧
    (∀ ce d m y v st', svcHebToGreg ce st d m y = .ok (v, st') →
      svcHebToGreg ce st' d m y = .ok (v, st')) ∧
    (∀ ce inst v st', svcEnhanced ce st inst = .ok (v, st') →
      svcEnhanced ce st' inst = .ok (v, st')) := by
  have hOK := cacheOK_of_reachable zf st hst
  refine ⟨?_, ?_, ?_, ?_, ?_, ?_, ?_⟩
  · intro ce inst
    cases ce
    · rfl
    · cases hc : cacheGet st (.kG2H inst) with
      | some v =>
        obtain ⟨r, hbr, hv⟩ := (hOK _ _ (cacheGet_mem st _ v hc)).1 inst rfl
        rw [svcG2H_hit st inst v hc, svcG2H_off_ok st inst r hbr, hv]
      | none =>
        cases hb : gregorianToHebrew inst.absDay with
        | error e =>
          rw [svcG2H_miss_err st inst e hc hb, svcG2H_off_err st inst e hb]
        | ok r =>
          rw [svcG2H_miss_ok st inst r hc hb, svcG2H_off_ok st inst r hb]
          rfl
  · intro ce d m y
    cases ce
    · rfl
    · cases hc : cacheGet st (.kH2G d m y) with
      | some v =>
        obtain ⟨r, hbr, hv⟩ :=
          (hOK _ _ (cacheGet_mem st _ v hc)).2.1 d m y rfl
        rw [svcH2G_hit st d m y v hc, svcH2G_off_ok st d m y r hbr, hv]
      | none =>
        cases hb : hebrewToGregorian d m y with
        | error e =>
          rw [svcH2G_miss_err st d m y e hc hb, svcH2G_off_err st d m y e hb]
        | ok r =>
          rw [svcH2G_miss_ok st d m y r hc hb, svcH2G_off_ok st d m y r hb]
          rfl
  · intro ce inst
    cases ce
    · rfl
    · cases hc : cacheGet st (.kEnh inst) with
      | some v =>
        obtain ⟨e, hbr, hv⟩ :=
          (hOK _ _ (cacheGet_mem st _ v hc)).2.2.1 inst rfl
        rw [svcEnh_hit st inst v hc, svcEnh_off_ok st inst e hbr, hv]
      | none =>
        cases hb : getEnhancedDatePure inst with
        | error er =>
          rw [svcEnh_miss_err st inst er hc hb, svcEnh_off_err st inst er hb]
        | ok e =>
          rw [svcEnh_miss_ok st inst e hc hb, svcEnh_off_ok st inst e hb]
          rfl
  · intro ce inst loc
    cases ce
    · rfl
    · cases hc : cacheGet st (.kZman inst.absDay loc.latitude loc.longitude) with
      | some v =>
        rw [svcZman_hit zf st inst loc v hc, svcZman_hit zf st inst loc v hc]
      | none =>
        rw [svcZman_miss zf st inst loc hc]
        rw [svcZman_hit zf _ inst loc _ (cacheGet_set_self st _ _)]
  · intro ce inst v st' hcall
    cases ce
    · cases hb : gregorianToHebrew inst.absDay with
      | error e =>
        rw [svcG2H_off_err st inst e hb] at hcall
        exact absurd hcall (by simp)
      | ok r =>
        rw [svcG2H_off_ok st inst r hb] at hcall
        simp only [Except.ok.injEq, Prod.mk.injEq] at hcall
        obtain ⟨hv, hst2⟩ := hcall
        rw [← hst2, ← hv]
        exact svcG2H_off_ok st inst r hb
    · cases hc : cacheGet st (.kG2H inst) with
      | some w =>
        rw [svcG2H_hit st inst w hc] at hcall
        simp only [Except.ok.injEq, Prod.mk.injEq] at hcall
        obtain ⟨hv, hst2⟩ := hcall
        rw [← hst2, ← hv]
        exact svcG2H_hit st inst w hc
      | none =>
        cases hb : gregorianToHebrew inst.absDay with
        | error e =>
          rw [svcG2H_miss_err st inst e hc hb] at hcall
          exact absurd hcall (by simp)
        | ok r =>
          rw [svcG2H_miss_ok st inst r hc hb] at hcall
          simp only [Except.ok.injEq, Prod.mk.injEq] at hcall
          obtain ⟨hv, hst2⟩ := hcall
          rw [← hst2, ← hv]
          exact svcG2H_hit _ inst _ (cacheGet_set_self st _ _)
  · intro ce d m y v st' hcall
    cases ce
    · cases hb : hebrewToGregorian d m y with
      | error e =>
        rw [svcH2G_off_err st d m y e hb] at hcall
        exact absurd hcall (by simp)
      | ok r =>
        rw [svcH2G_off_ok st d m y r hb] at hcall
        simp only [Except.ok.injEq, Prod.mk.injEq] at hcall
        obtain ⟨hv, hst2⟩ := hcall
        rw [← hst2, ← hv]
        exact svcH2G_off_ok st d m y r hb
    · cases hc : cacheGet st (.kH2G d m y) with
      | some w =>
        rw [svcH2G_hit st d m y w hc] at hcall
        simp only [Except.ok.injEq, Prod.mk.injEq] at hcall
        obtain ⟨hv, hst2⟩ := hcall
        rw [← hst2, ← hv]
        exact svcH2G_hit st d m y w hc
      | none =>
        cases hb : hebrewToGregorian d m y with
        | error e =>
          rw [svcH2G_miss_err st d m y e hc hb] at hcall
          exact absurd hcall (by simp)
        | ok r =>
          rw [svcH2G_miss_ok st d m y r hc hb] at hcall
          simp only [Except.ok.injEq, Prod.mk.injEq] at hcall
          obtain ⟨hv, hst2⟩ := hcall
          rw [← hst2, ← hv]
          exact svcH2G_hit _ d m y _ (cacheGet_set_self st _ _)
  · intro ce inst v st' hcall
    cases ce
    · cases hb : getEnhancedDatePure inst with
      | error er =>
        rw [svcEnh_off_err st inst er hb] at hcall
        exact absurd hcall (by simp)
      | ok e =>
        rw [svcEnh_off_ok st inst e hb] at hcall
        simp only [Except.ok.injEq, Prod.mk.injEq] at hcall
        obtain ⟨hv, hst2⟩ := hcall
        rw [← hst2, ← hv]
        exact svcEnh_off_ok st inst e hb
    · cases hc : cacheGet st (.kEnh inst) with
      | some w =>
        rw [svcEnh_hit st inst w hc] at hcall
        simp only [Except.ok.injEq, Prod.mk.injEq] at hcall
        obtain ⟨hv, hst2⟩ := hcall
        rw [← hst2, ← hv]
        exact svcEnh_hit st inst w hc
      | none =>
        cases hb : getEnhancedDatePure inst with
        | error er =>
          rw [svcEnh_miss_err st inst er hc hb] at hcall
          exact absurd hcall (by simp)
        | ok e =>
          rw [svcEnh_miss_ok st inst e hc hb] at hcall
          simp only [Except.ok.injEq, Prod.mk.injEq] at hcall
          obtain ⟨hv, hst2⟩ := hcall
          rw [← hst2, ← hv]
          exact svcEnh_hit _ inst _ (cacheGet_set_self st _ _)

/-- Witness for the amended C8 theorem: the facade conversion on the
empty cache state, cache on versus off. -/
theorem cache_semantics_amended_witness :
    (svcGregToHebrew true [] sampleInstant).map Prod.fst =
      (svcGregToHebrew false [] sampleInstant).map Prod.fst :=
  (cache_semantics_amended zfSample [] Reachable.empty).1 true sampleInstant

end HebrewCalendar
